import Mathlib

/-
Verification development for the ionizer-interface core of the
pydase_service_base repository.

The development shallowly embeds the Python sources

  - pydase_service_base/ionizer_interface/rpc_interface.py
      (flatten_obj, flatten_obj_value, update_method_serialization,
       extract_type_name, RPCInterface.get_param / set_param / get_props)
  - pydase_service_base/ionizer_interface/ionizer_server.py
      (IonizerServer.notify_ionizer)
  - icon_service_base/ionizer_interface/rpc_interface.py
      (RPCInterface.set_param, the property-guarded write path)
  - icon_service_base/ionizer_interface/ionizer_server.py
      (IonizerServer.notify_Ionizer)

into Lean.  Python dictionaries become ordered association lists
(insertion order preserved, assignment overwrites in place), Python
exceptions become an explicit error type threaded through Except, and
the live pydase object tree becomes the inductive type Native below.
External pydase library functions that the sources call are modelled
where they are needed; each such definition carries a doc comment
saying what it models.
-/

/- ===================== String helpers ====================== -/

/-- Boolean test that pat is a prefix of l, on character lists. -/
def listHasPrefix : List Char → List Char → Bool
  | _, [] => true
  | [], _ :: _ => false
  | c :: cs, p :: ps => c == p && listHasPrefix cs ps

/-- Boolean test that pat occurs as a contiguous substring of l. -/
def listHasSub (l pat : List Char) : Bool :=
  match l with
  | [] => pat.isEmpty
  | _ :: rest => listHasPrefix l pat || listHasSub rest pat

/-- Models the Python substring test pat in s (used by set_param for
the check "Enum" in current_value_dict["type"]). -/
def strContains (s pat : String) : Bool := listHasSub s.data pat.data

/-- Splits a string at every occurrence of the separator character,
like Python str.split(sep); the empty string yields one empty chunk. -/
def splitCharAux (sep : Char) : List Char → List Char → List String
  | [], acc => [String.mk acc.reverse]
  | c :: rest, acc =>
      if c == sep then String.mk acc.reverse :: splitCharAux sep rest []
      else splitCharAux sep rest (c :: acc)

/-- Entry point of the character-wise split. -/
def splitChar (sep : Char) (s : String) : List String := splitCharAux sep s.data []

/-- Models Python full_access_path.split("."). -/
def splitDot (s : String) : List String := splitChar '.' s

/-- Models Python ".".join(parts). -/
def joinDot : List String → String
  | [] => ""
  | [s] => s
  | s :: rest => s ++ "." ++ joinDot rest

/- ===================== The live object tree ====================== -/

/-- Value carried by one Python enum member (the member's .value
attribute); pydase services use int- or str-valued enumerations. -/
inductive EnumVal where
  | eint (n : Int)
  | estr (s : String)

/-- Whether an attribute of a DataService is a plain stored attribute
or a computed one (a Python property, i.e. backed by a getter). -/
inductive AttrKind where
  | stored
  | propA

/-- Shallow embedding of the live pydase object graph that the RPC
interface resolves paths against.  An enum member is represented by
its class (the declared members, in declaration order, each with its
name and value) together with the member's position in that order; a
Quantity is a magnitude with a unit string; a NumberSlider wraps its
inner value attribute; a DataService node carries its attributes in
declaration order, each marked stored or property. -/
inductive Native where
  | int (n : Int)
  | str (s : String)
  | enumMember (cls : List (String × EnumVal)) (idx : Nat)
  | quantity (m : Int) (u : String)
  | slider (value : Native)
  | service (attrs : List (String × AttrKind × Native))

/-- Errors raised by the embedded operations: Python AttributeError
(failed attribute lookup), IndexError (out-of-range list index, as
raised by the unchecked enum-ordinal lookup in set_param), and
TypeError (a wire value that the coercion cannot combine with the
current native value). -/
inductive Err where
  | attributeError
  | indexError
  | typeError

/-- Conversion of an enum member value to the wire-level object that
Python hands around (param.value for an int- or str-valued member). -/
def evToNative : EnumVal → Native
  | .eint n => .int n
  | .estr s => .str s

/-- First-match association-list lookup over the attribute list of a
service, like Python attribute lookup on an object. -/
def lookupA : List (String × AttrKind × Native) → String → Option (AttrKind × Native)
  | [], _ => none
  | (k, a) :: rest, s => if k = s then some a else lookupA rest s

/-- Replace the first attribute with the given name, keeping the
position, like Python setattr on an existing attribute. -/
def setA : List (String × AttrKind × Native) → String → AttrKind × Native →
    List (String × AttrKind × Native)
  | [], _, _ => []
  | (k, a) :: rest, s, na => if k = s then (s, na) :: rest else (k, a) :: setA rest s na

/-- Models Python getattr(obj, name) on the embedded tree.  The second
component records whether the lookup evaluated a property getter
(reading a computed attribute runs its getter; reading a stored
attribute or the value attribute of a NumberSlider does not). -/
def getattrEv : Native → String → Option (Native × Bool)
  | .service attrs, name =>
      match lookupA attrs name with
      | some (.stored, v) => some (v, false)
      | some (.propA, v) => some (v, true)
      | none => none
  | .slider v, name => if name = "value" then some (v, false) else none
  | _, _ => none

/-- Plain attribute lookup, forgetting the getter-evaluation flag. -/
def getattrPlain (o : Native) (s : String) : Option Native := (getattrEv o s).map (·.1)

/-- Models the pydase helpers get_object_attr_from_path and
get_object_by_path_parts: walk the attribute segments in order from
the root, failing with AttributeError at the first segment that
cannot be satisfied. -/
def resolve : Native → List String → Except Err Native
  | root, [] => .ok root
  | root, s :: rest =>
      match getattrPlain root s with
      | some v => resolve v rest
      | none => .error .attributeError

/-- Instrumented resolver: additionally returns the full access paths
of every computed attribute whose getter was evaluated during the
walk.  The pref argument is the path prefix already walked. -/
def resolveEv : Native → List String → List String → Except Err (Native × List (List String))
  | root, _, [] => .ok (root, [])
  | root, pref, s :: rest =>
      match getattrEv root s with
      | some (v, b) =>
          match resolveEv v (pref ++ [s]) rest with
          | .ok (w, evs) => .ok (w, (if b then [pref ++ [s]] else []) ++ evs)
          | .error e => .error e
      | none => .error .attributeError

/-- Decides whether the path denotes a plain stored attribute slot of
the tree (the target of a write that actually lands): every proper
prefix resolves and the final segment names a stored attribute of a
service, or the value attribute of a NumberSlider. -/
def storedAt : Native → List String → Bool
  | _, [] => false
  | .service attrs, [last] =>
      match lookupA attrs last with
      | some (.stored, _) => true
      | _ => false
  | .slider _, [last] => last = "value"
  | .service attrs, s :: rest =>
      match lookupA attrs s with
      | some (_, v) => storedAt v rest
      | none => false
  | .slider v, s :: rest => if s = "value" then storedAt v rest else false
  | _, _ => false

/-- Decides whether the path denotes a computed (property) attribute
of a service. -/
def propAt : Native → List String → Bool
  | _, [] => false
  | .service attrs, [last] =>
      match lookupA attrs last with
      | some (.propA, _) => true
      | _ => false
  | .service attrs, s :: rest =>
      match lookupA attrs s with
      | some (_, v) => propAt v rest
      | none => false
  | .slider v, s :: rest => if s = "value" then propAt v rest else false
  | _, _ => false

/-- Modelled from the spec: the external pydase write entry point
(StateManager.set_service_attribute_value_by_path in the pydase
package, DataService.update_DataService_attribute in older pydase),
which is not part of this repository.  It applies a native value at a
path of the live tree; per the spec (sections 4.4 and 9), a write to
a computed (getter-backed) attribute is rejected silently as a no-op
rather than raising. -/
def setAttrByPath : Native → List String → Native → Except Err Native
  | _, [], _ => .error .attributeError
  | root, [last], v =>
      match root with
      | .service attrs =>
          match lookupA attrs last with
          | some (.stored, _) => .ok (.service (setA attrs last (.stored, v)))
          | some (.propA, _) => .ok root
          | none => .error .attributeError
      | .slider _ => if last = "value" then .ok (.slider v) else .error .attributeError
      | _ => .error .attributeError
  | root, s :: rest, v =>
      match root with
      | .service attrs =>
          match lookupA attrs s with
          | some (kind, c) =>
              match setAttrByPath c rest v with
              | .ok c2 => .ok (.service (setA attrs s (kind, c2)))
              | .error e => .error e
          | none => .error .attributeError
      | .slider c =>
          if s = "value" then
            match setAttrByPath c rest v with
            | .ok c2 => .ok (.slider c2)
            | .error e => .error e
          else .error .attributeError
      | _ => .error .attributeError

/-- Models the type tag under which pydase serializes a native value
(the "type" field of the serialized dictionary that set_param reads
from the state manager's cache; the cache is maintained coherent with
the live tree by pydase). -/
def typeTag : Native → String
  | .int _ => "int"
  | .str _ => "str"
  | .enumMember _ _ => "Enum"
  | .quantity _ _ => "Quantity"
  | .slider _ => "NumberSlider"
  | .service _ => "DataService"

/-- Models Python list indexing lst[i] on a list of the given length:
indices 0 <= i < len address position i, negative indices -len <= i < 0
address position len + i, and anything else raises IndexError. -/
def pyIndex (len : Nat) (i : Int) : Option Nat :=
  if 0 ≤ i ∧ i < len then some i.toNat
  else if -(len : Int) ≤ i ∧ i < 0 then some ((len : Int) + i).toNat
  else none

/-- Boolean isinstance(value, int) on the embedded wire values. -/
def isInt : Native → Bool
  | .int _ => true
  | _ => false

/- ===================== RPCInterface (pydase_service_base) ====================== -/

/-- Embeds RPCInterface.get_param of
pydase_service_base/ionizer_interface/rpc_interface.py.  The path is
pre-split into attribute segments (the Python source passes the dotted
string to the pydase helper get_object_attr_from_path, which performs
the split).  The DataService branch of the source returns
param.serialize(), produced by the external pydase serializer; no
claim reads a service node through get_param, so that branch returns
the node itself here.  The ismethod branch of the source is not
modelled because the embedded tree carries no methods. -/
def get_param (svc : Native) (pathParts : List String) : Except Err Native :=
  match resolve svc pathParts with
  | .error e => .error e
  | .ok param =>
      match param with
      | .slider v =>
          match v with
          | .quantity m _ => .ok (.int m)
          | _ => .ok v
      | .service _ => .ok param
      | .enumMember cls i => .ok (evToNative (cls.getD i ("", .eint 0)).2)
      | .quantity m _ => .ok (.int m)
      | v => .ok v

/-- Embeds the body of RPCInterface.set_param of
pydase_service_base/ionizer_interface/rpc_interface.py: resolve the
parent, read the cached type tag of the current value, coerce the wire
value (enum ordinal, quantity magnitude, NumberSlider rewrite to the
inner value path), then apply through the external setter.  The cached
serialized dictionary lookup get_nested_dict_by_path(cache_value, ...)
is modelled by reading the type tag off the live tree, which pydase
keeps coherent with the cache. -/
def set_param_core (svc : Native) (pathParts : List String) (value : Native) :
    Except Err Native :=
  match resolve svc pathParts.dropLast with
  | .error e => .error e
  | .ok parentObject =>
      match resolve svc pathParts with
      | .error e => .error e
      | .ok currentNative =>
          let currentTag := typeTag currentNative
          let step1 : Except Err Native :=
            if strContains currentTag "Enum" && isInt value then
              match resolve parentObject [pathParts.getLastD ""] with
              | .error e => .error e
              | .ok currentValue =>
                  match currentValue, value with
                  | .enumMember cls _, .int i =>
                      match pyIndex cls.length i with
                      | some k => .ok (.enumMember cls k)
                      | none => .error .indexError
                  | _, _ => .error .typeError
            else .ok value
          match step1 with
          | .error e => .error e
          | .ok value1 =>
              let step2 : Except Err (List String × Native) :=
                if currentTag = "Quantity" then
                  match resolve parentObject [pathParts.getLastD ""] with
                  | .error e => .error e
                  | .ok currentValue =>
                      match currentValue, value1 with
                      | .quantity _ u, .int m => .ok (pathParts, .quantity m u)
                      | _, _ => .error .typeError
                else if currentTag = "NumberSlider" then
                  match currentNative with
                  | .slider (.quantity _ u) =>
                      match value1 with
                      | .int m => .ok (pathParts ++ ["value"], .quantity m u)
                      | _ => .error .typeError
                  | .slider _ => .ok (pathParts ++ ["value"], value1)
                  | _ => .error .typeError
                else .ok (pathParts, value1)
              match step2 with
              | .error e => .error e
              | .ok (pathParts2, value2) => setAttrByPath svc pathParts2 value2

/-- Embeds RPCInterface.set_param as observed from outside: the
resulting live tree together with the exception, if one escaped.  An
exception propagates before the single mutation point (the final
external setter call), so on error the tree is returned unchanged. -/
def set_param (svc : Native) (pathParts : List String) (value : Native) :
    Native × Option Err :=
  match set_param_core svc pathParts value with
  | .ok svc2 => (svc2, none)
  | .error e => (svc, some e)

/- ===================== RPCInterface (icon_service_base) ====================== -/

/-- Modelled from the spec: DataService.update_DataService_attribute
of the external pydase package, called by the icon_service_base
set_param; like the newer setter it applies the value at
parent path plus attribute name, and silently ignores writes to
computed attributes (spec sections 4.4 and 9).  Type-directed
reconstruction of native values from wire forms inside pydase is out
of scope; the value is stored as passed. -/
def update_DataService_attribute (svc : Native) (parentPathList : List String)
    (attrName : String) (value : Native) : Except Err Native :=
  setAttrByPath svc (parentPathList ++ [attrName]) value

/-- Embeds RPCInterface.set_param of
icon_service_base/ionizer_interface/rpc_interface.py.  The result
carries the full access paths of every property getter evaluated
during the call; the guard
isinstance(getattr(type(parent_object), attr_name, None), property)
inspects the class attribute without running the getter, and when it
fires the coercion step (which would read the current value with
getattr) is skipped entirely. -/
def set_param_icon (svc : Native) (pathParts : List String) (value : Native) :
    Except Err (Native × List (List String)) :=
  let parentPathList := pathParts.dropLast
  let attrName := pathParts.getLastD ""
  match resolveEv svc [] parentPathList with
  | .error e => .error e
  | .ok (parentObject, evs) =>
      let isProp : Bool :=
        match parentObject with
        | .service attrs =>
            match lookupA attrs attrName with
            | some (.propA, _) => true
            | _ => false
        | _ => false
      if isProp then
        match update_DataService_attribute svc parentPathList attrName value with
        | .ok svc2 => .ok (svc2, evs)
        | .error e => .error e
      else
        let current := getattrEv parentObject attrName
        let evs2 := evs ++
          (match current with
           | some (_, true) => [parentPathList ++ [attrName]]
           | _ => [])
        match current with
        | some (.enumMember cls _, _) =>
            match value with
            | .int i =>
                match pyIndex cls.length i with
                | some k =>
                    match update_DataService_attribute svc parentPathList attrName
                        (.str (cls.getD k ("", .eint 0)).1) with
                    | .ok svc2 => .ok (svc2, evs2)
                    | .error e => .error e
                | none => .error .indexError
            | _ =>
                match update_DataService_attribute svc parentPathList attrName value with
                | .ok svc2 => .ok (svc2, evs2)
                | .error e => .error e
        | some (.slider _, _) =>
            match update_DataService_attribute svc (parentPathList ++ [attrName])
                "value" value with
            | .ok svc2 => .ok (svc2, evs2)
            | .error e => .error e
        | _ =>
            match update_DataService_attribute svc parentPathList attrName value with
            | .ok svc2 => .ok (svc2, evs2)
            | .error e => .error e

/-- Embeds RPCInterface.get_param of
icon_service_base/ionizer_interface/rpc_interface.py; it differs from
the newer version only in the NumberSlider branch, which returns the
inner value object unconverted. -/
def get_param_icon (svc : Native) (pathParts : List String) : Except Err Native :=
  match resolve svc pathParts with
  | .error e => .error e
  | .ok param =>
      match param with
      | .slider v => .ok v
      | .service _ => .ok param
      | .enumMember cls i => .ok (evToNative (cls.getD i ("", .eint 0)).2)
      | .quantity m _ => .ok (.int m)
      | v => .ok v

/- ===================== Notification bridge ====================== -/

/-- Value placed in the name field of the notification dictionary sent
to Ionizer.  The Python variable full_access_path is a string, but the
pydase_service_base notify_ionizer reassigns it to the resolved parent
object in its duplicated NumberSlider branch, so the published name is
either a path string or a live object. -/
inductive NotifyName where
  | str (s : String)
  | pyobj (o : Native)

/-- The notification dictionary handed to the RPC server:
a name and a value. -/
structure NotifyMsg where
  name : NotifyName
  value : Native

/-- Boolean isinstance(x, NumberSlider). -/
def isSlider : Native → Bool
  | .slider _ => true
  | _ => false

/-- Wire coercion applied by both notify implementations: an Enum
value is replaced by its member value, then a Quantity by its
magnitude. -/
def notifyCoerce (value : Native) : Native :=
  let v1 := match value with
    | .enumMember cls i => evToNative (cls.getD i ("", .eint 0)).2
    | v => v
  match v1 with
  | .quantity m _ => .int m
  | v => v

/-- Embeds IonizerServer.notify_ionizer of
pydase_service_base/ionizer_interface/ionizer_server.py, lines 45-80:
coerce the value, and when the changed attribute is named value,
resolve the parent; the source then contains the NumberSlider branch
twice, the first assignment replacing the outward path by the parent
path string and the second, immediately after it, replacing it by the
parent object itself.  The returned message is what is passed to
server._handler.notify. -/
def notify_ionizer (svc : Native) (full_access_path : String) (value : Native) :
    Except Err NotifyMsg :=
  let parts := splitDot full_access_path
  let attrName := parts.getLastD ""
  let value2 := notifyCoerce value
  if attrName = "value" then
    let parentPath := joinDot parts.dropLast
    match resolve svc (splitDot parentPath) with
    | .error e => .error e
    | .ok parentObject =>
        let fap0 : NotifyName := .str full_access_path
        let fap1 := if isSlider parentObject then .str parentPath else fap0
        let fap2 := if isSlider parentObject then .pyobj parentObject else fap1
        .ok ⟨fap2, value2⟩
  else .ok ⟨.str full_access_path, value2⟩

/-- Embeds IonizerServer.notify_Ionizer of
icon_service_base/ionizer_interface/ionizer_server.py, lines 36-65,
which contains the NumberSlider branch once and keeps the outward
name a string. -/
def notify_Ionizer_icon (svc : Native) (full_access_path : String) (value : Native) :
    Except Err NotifyMsg :=
  let parts := splitDot full_access_path
  let attrName := parts.getLastD ""
  let value2 := notifyCoerce value
  if attrName = "value" then
    match resolve svc parts.dropLast with
    | .error e => .error e
    | .ok parentObject =>
        let fap1 := if isSlider parentObject then
            NotifyName.str (joinDot parts.dropLast)
          else .str full_access_path
        .ok ⟨fap1, value2⟩
  else .ok ⟨.str full_access_path, value2⟩

example : splitDot "panel.slider.value" = ["panel", "slider", "value"] := rfl
example : joinDot ["panel", "slider"] = "panel.slider" := rfl
example : strContains "ColouredEnum" "Enum" = true := rfl
example : strContains "Quantity" "Enum" = false := rfl

/- ===================== Serialized snapshots and the flattener ====================== -/

/-- Shallow embedding of one node of a pydase serialized snapshot
(SerializedObject): a "type" tag together with a "value" field that is
a primitive, a keyed dictionary of serialized objects, or a list of
serialized objects. -/
inductive SObj where
  | prim (t : String) (v : String)
  | sdict (t : String) (entries : List (String × SObj))
  | slist (t : String) (items : List SObj)

/-- The type tags for which flatten_obj rewrites the "value" field, as
listed in the source. -/
def containerTypes : List String :=
  ["DataService", "Image", "NumberSlider", "DeviceConnection", "Task", "list", "dict"]

/-- Keys of an embedded Python dictionary, in insertion order. -/
def dkeys (d : List (String × SObj)) : List String := d.map (·.1)

/-- Replace the value stored under the first occurrence of a key,
keeping its position. -/
def dset : List (String × SObj) → String → SObj → List (String × SObj)
  | [], _, _ => []
  | (k, v) :: rest, s, nv => if k = s then (s, nv) :: rest else (k, v) :: dset rest s nv

/-- Models Python dictionary assignment d[k] = v: an existing key
keeps its position and gets the new value, a new key is appended. -/
def dinsert (d : List (String × SObj)) (k : String) (v : SObj) : List (String × SObj) :=
  if (dkeys d).contains k then dset d k v else d ++ [(k, v)]

mutual

/-- Embeds flatten_obj of
pydase_service_base/ionizer_interface/rpc_interface.py: deep-copy the
object and, when its type tag is one of the container types, replace
the value field by the flattened value.  In the source the deep copy
is followed by flatten_obj_value(obj["value"]), which immediately
calls .items() on the value; when the value is a list or a primitive
(not a dict), that raises AttributeError, modelled here by the error
arms of the non-dict cases. -/
def flatten_obj : SObj → Except Err SObj
  | .prim t v =>
      if containerTypes.contains t then .error .attributeError else .ok (.prim t v)
  | .slist t items =>
      if containerTypes.contains t then .error .attributeError else .ok (.slist t items)
  | .sdict t entries =>
      if containerTypes.contains t then
        match flatten_entries entries [] with
        | .ok d => .ok (.sdict t d)
        | .error e => .error e
      else .ok (.sdict t entries)
termination_by o => sizeOf o

/-- Embeds the loop of flatten_obj_value of
pydase_service_base/ionizer_interface/rpc_interface.py, with the
dictionary under construction as accumulator: a value of type "list"
whose value is a list is expanded element-wise under keys key[index],
a value of type "dict" whose value is a dict is expanded entry-wise
under keys key["k"], and any other value is emitted under its own key
after recursive flattening. -/
def flatten_entries :
    List (String × SObj) → List (String × SObj) → Except Err (List (String × SObj))
  | [], acc => .ok acc
  | (key, value) :: rest, acc =>
      match value with
      | .slist t items =>
          if t = "list" then
            match flatten_list_items key 0 items acc with
            | .ok acc2 => flatten_entries rest acc2
            | .error e => .error e
          else
            match flatten_obj (.slist t items) with
            | .ok f => flatten_entries rest (dinsert acc key f)
            | .error e => .error e
      | .sdict t kvs =>
          if t = "dict" then
            match flatten_dict_items key kvs acc with
            | .ok acc2 => flatten_entries rest acc2
            | .error e => .error e
          else
            match flatten_obj (.sdict t kvs) with
            | .ok f => flatten_entries rest (dinsert acc key f)
            | .error e => .error e
      | .prim t v =>
          match flatten_obj (.prim t v) with
          | .ok f => flatten_entries rest (dinsert acc key f)
          | .error e => .error e
termination_by l acc => sizeOf l

/-- Embeds the inner loop for a list-typed value: each element is
flattened and stored under key[index]. -/
def flatten_list_items :
    String → Nat → List SObj → List (String × SObj) → Except Err (List (String × SObj))
  | _, _, [], acc => .ok acc
  | key, i, item :: rest, acc =>
      match flatten_obj item with
      | .ok f => flatten_list_items key (i + 1) rest (dinsert acc (key ++ "[" ++ toString i ++ "]") f)
      | .error e => .error e
termination_by key i items acc => sizeOf items

/-- Embeds the inner loop for a dict-typed value: each entry is
flattened and stored under key["k"], the inner key being embedded
verbatim between double quotes. -/
def flatten_dict_items :
    String → List (String × SObj) → List (String × SObj) → Except Err (List (String × SObj))
  | _, [], acc => .ok acc
  | key, (k, v) :: rest, acc =>
      match flatten_obj v with
      | .ok f => flatten_dict_items key rest (dinsert acc (key ++ "[\"" ++ k ++ "\"]") f)
      | .error e => .error e
termination_by key kvs acc => sizeOf kvs

end

/-- Embeds flatten_obj_value of
pydase_service_base/ionizer_interface/rpc_interface.py, the function
applied by get_props to the value dictionary of the serialized
service: it runs the flattening loop starting from an empty
dictionary. -/
def flatten_obj_value (obj_value : List (String × SObj)) :
    Except Err (List (String × SObj)) :=
  flatten_entries obj_value []

example :
    flatten_obj_value [("l", .slist "list" [.sdict "dict" [("k", .prim "int" "1")]])] =
      .ok [("l[0]", .sdict "dict" [("k", .prim "int" "1")])] := by
  simp [flatten_obj_value, flatten_entries, flatten_list_items, flatten_dict_items,
    flatten_obj, dinsert, dset, dkeys, containerTypes]
  decide

example :
    flatten_obj_value [("l[0]", .sdict "dict" [("k", .prim "int" "1")])] =
      .ok [("l[0][\"k\"]", .prim "int" "1")] := by
  simp [flatten_obj_value, flatten_entries, flatten_list_items, flatten_dict_items,
    flatten_obj, dinsert, dset, dkeys, containerTypes]

/- ===================== Resolver and setter lemmas ====================== -/

theorem lookupA_setA_self (attrs : List (String × AttrKind × Native)) (s : String)
    (a na : AttrKind × Native) (h : lookupA attrs s = some a) :
    lookupA (setA attrs s na) s = some na := by
  induction attrs with
  | nil => simp [lookupA] at h
  | cons hd tl ih =>
      obtain ⟨k, a0⟩ := hd
      by_cases hk : k = s
      · subst hk
        simp [lookupA, setA]
      · simp only [lookupA, setA, if_neg hk] at h ⊢
        exact ih h

theorem setA_self (attrs : List (String × AttrKind × Native)) (s : String)
    (a : AttrKind × Native) (h : lookupA attrs s = some a) :
    setA attrs s a = attrs := by
  induction attrs with
  | nil => simp [setA]
  | cons hd tl ih =>
      obtain ⟨k, a0⟩ := hd
      by_cases hk : k = s
      · subst hk
        simp [lookupA] at h
        simp [setA, h]
      · simp only [lookupA, if_neg hk] at h
        simp [setA, hk, ih h]

theorem resolve_cons (root : Native) (s : String) (rest : List String) :
    resolve root (s :: rest) =
      (match getattrPlain root s with
       | some v => resolve v rest
       | none => Except.error Err.attributeError) := rfl

theorem setAttr_stored (path : List String) :
    ∀ (root v : Native), storedAt root path = true →
      ∃ root2, setAttrByPath root path v = .ok root2 ∧ resolve root2 path = .ok v := by
  induction path with
  | nil => intro root v h; simp [storedAt] at h
  | cons s t ih =>
      intro root v h
      cases t with
      | nil =>
          cases root with
          | service attrs =>
              cases hl : lookupA attrs s with
              | none => simp [storedAt, hl] at h
              | some a =>
                  obtain ⟨kind, w⟩ := a
                  cases kind with
                  | propA => simp [storedAt, hl] at h
                  | stored =>
                      refine ⟨.service (setA attrs s (.stored, v)), ?_, ?_⟩
                      · simp [setAttrByPath, hl]
                      · simp [resolve, getattrPlain, getattrEv,
                          lookupA_setA_self attrs s _ _ hl]
          | slider w =>
              have hs : s = "value" := by simpa [storedAt] using h
              subst hs
              exact ⟨.slider v, by simp [setAttrByPath], by simp [resolve, getattrPlain, getattrEv]⟩
          | int n => simp [storedAt] at h
          | str s2 => simp [storedAt] at h
          | enumMember cls i => simp [storedAt] at h
          | quantity m u => simp [storedAt] at h
      | cons a2 t2 =>
          cases root with
          | service attrs =>
              cases hl : lookupA attrs s with
              | none => simp [storedAt, hl] at h
              | some pr =>
                  obtain ⟨kind, c⟩ := pr
                  have hst : storedAt c (a2 :: t2) = true := by
                    simpa [storedAt, hl] using h
                  obtain ⟨c2, hset, hres⟩ := ih c v hst
                  refine ⟨.service (setA attrs s (kind, c2)), ?_, ?_⟩
                  · simp [setAttrByPath, hl, hset]
                  · have hgp : getattrPlain (Native.service (setA attrs s (kind, c2))) s =
                        some c2 := by
                      cases kind <;>
                        simp [getattrPlain, getattrEv, lookupA_setA_self attrs s _ _ hl]
                    rw [resolve_cons, hgp]
                    exact hres
          | slider w =>
              have hs : s = "value" ∧ storedAt w (a2 :: t2) = true := by
                by_cases hsv : s = "value"
                · exact ⟨hsv, by simpa [storedAt, hsv] using h⟩
                · simp [storedAt, hsv] at h
              obtain ⟨hsv, hst⟩ := hs
              subst hsv
              obtain ⟨c2, hset, hres⟩ := ih w v hst
              refine ⟨.slider c2, by simp [setAttrByPath, hset], ?_⟩
              have hgp : getattrPlain (Native.slider c2) "value" = some c2 := by
                simp [getattrPlain, getattrEv]
              rw [resolve_cons, hgp]
              exact hres
          | int n => simp [storedAt] at h
          | str s2 => simp [storedAt] at h
          | enumMember cls i => simp [storedAt] at h
          | quantity m u => simp [storedAt] at h

theorem setAttr_prop_noop (path : List String) :
    ∀ (root v : Native), propAt root path = true →
      setAttrByPath root path v = .ok root := by
  induction path with
  | nil => intro root v h; simp [propAt] at h
  | cons s t ih =>
      intro root v h
      cases t with
      | nil =>
          cases root with
          | service attrs =>
              cases hl : lookupA attrs s with
              | none => simp [propAt, hl] at h
              | some a =>
                  obtain ⟨kind, w⟩ := a
                  cases kind with
                  | stored => simp [propAt, hl] at h
                  | propA => simp [setAttrByPath, hl]
          | slider w => simp [propAt] at h
          | int n => simp [propAt] at h
          | str s2 => simp [propAt] at h
          | enumMember cls i => simp [propAt] at h
          | quantity m u => simp [propAt] at h
      | cons a2 t2 =>
          cases root with
          | service attrs =>
              cases hl : lookupA attrs s with
              | none => simp [propAt, hl] at h
              | some pr =>
                  obtain ⟨kind, c⟩ := pr
                  have hst : propAt c (a2 :: t2) = true := by
                    simpa [propAt, hl] using h
                  simp [setAttrByPath, hl, ih c v hst, setA_self attrs s _ hl]
          | slider w =>
              have hs : s = "value" ∧ propAt w (a2 :: t2) = true := by
                by_cases hsv : s = "value"
                · exact ⟨hsv, by simpa [propAt, hsv] using h⟩
                · simp [propAt, hsv] at h
              obtain ⟨hsv, hst⟩ := hs
              subst hsv
              simp [setAttrByPath, ih w v hst]
          | int n => simp [propAt] at h
          | str s2 => simp [propAt] at h
          | enumMember cls i => simp [propAt] at h
          | quantity m u => simp [propAt] at h

theorem resolve_snoc (p : List String) (root : Native) (s : String) :
    resolve root (p ++ [s]) =
      (match resolve root p with
       | .ok v =>
           (match getattrPlain v s with
            | some w => Except.ok w
            | none => Except.error Err.attributeError)
       | .error e => Except.error e) := by
  induction p generalizing root with
  | nil => cases hg : getattrPlain root s <;> simp [resolve, hg]
  | cons a t ih =>
      cases hg : getattrPlain root a <;> simp [resolve, hg, ih]

theorem resolveEv_fst (segs : List String) :
    ∀ (root : Native) (pref : List String) (v : Native) (evs : List (List String)),
      resolveEv root pref segs = .ok (v, evs) → resolve root segs = .ok v := by
  induction segs with
  | nil =>
      intro root pref v evs h
      simp [resolveEv] at h
      simp [resolve, h.1]
  | cons s t ih =>
      intro root pref v evs h
      cases hg : getattrEv root s with
      | none => simp [resolveEv, hg] at h
      | some p =>
          obtain ⟨w, b⟩ := p
          cases hr : resolveEv w (pref ++ [s]) t with
          | error e => simp [resolveEv, hg, hr] at h
          | ok q =>
              obtain ⟨v2, evs2⟩ := q
              simp [resolveEv, hg, hr] at h
              simp [resolve, getattrPlain, hg, ih w (pref ++ [s]) v2 evs2 hr, h.1]

theorem resolveEv_len (segs : List String) :
    ∀ (root : Native) (pref : List String) (v : Native) (evs : List (List String)),
      resolveEv root pref segs = .ok (v, evs) →
      ∀ e ∈ evs, e.length ≤ pref.length + segs.length := by
  induction segs with
  | nil =>
      intro root pref v evs h e he
      simp [resolveEv] at h
      simp [h.2] at he
  | cons s t ih =>
      intro root pref v evs h e he
      cases hg : getattrEv root s with
      | none => simp [resolveEv, hg] at h
      | some p =>
          obtain ⟨w, b⟩ := p
          cases hr : resolveEv w (pref ++ [s]) t with
          | error e2 => simp [resolveEv, hg, hr] at h
          | ok q =>
              obtain ⟨v2, evs2⟩ := q
              simp [resolveEv, hg, hr] at h
              rw [← h.2] at he
              rcases List.mem_append.mp he with hmem | hmem
              · cases b with
                | false => simp at hmem
                | true =>
                    simp at hmem
                    subst hmem
                    simp only [List.length_append, List.length_cons, List.length_nil]
                    omega
              · have := ih w (pref ++ [s]) v2 evs2 hr e hmem
                simp only [List.length_append, List.length_cons, List.length_nil] at this ⊢
                omega

theorem propAt_of_resolve (p : List String) :
    ∀ (root : Native) (attrs : List (String × AttrKind × Native)) (a : String)
      (w : Native),
      resolve root p = .ok (.service attrs) → lookupA attrs a = some (.propA, w) →
      propAt root (p ++ [a]) = true := by
  induction p with
  | nil =>
      intro root attrs a w hres hl
      simp [resolve] at hres
      subst hres
      simp [propAt, hl]
  | cons s t ih =>
      intro root attrs a w hres hl
      cases hg : getattrPlain root s with
      | none => simp [resolve, hg] at hres
      | some v =>
          simp only [resolve, hg] at hres
          have hrec := ih v attrs a w hres hl
          cases root with
          | service attrs2 =>
              cases hl2 : lookupA attrs2 s with
              | none => simp [getattrPlain, getattrEv, hl2] at hg
              | some pr =>
                  obtain ⟨kind, c⟩ := pr
                  have hcv : c = v := by
                    cases kind <;> simpa [getattrPlain, getattrEv, hl2] using hg
                  subst hcv
                  cases t with
                  | nil =>
                      simp only [List.nil_append] at hrec
                      simp only [List.nil_append, List.cons_append, propAt, hl2]
                      exact hrec
                  | cons x y =>
                      simp only [List.cons_append, propAt, hl2]
                      exact hrec
          | slider w2 =>
              by_cases hsv : s = "value"
              · subst hsv
                have hwv : w2 = v := by simpa [getattrPlain, getattrEv] using hg
                subst hwv
                cases t with
                | nil =>
                    simp only [List.nil_append] at hrec
                    simp only [List.nil_append, List.cons_append, propAt, if_pos rfl]
                    exact hrec
                | cons x y =>
                    simp only [List.cons_append, propAt, if_pos rfl]
                    exact hrec
              · simp [getattrPlain, getattrEv, hsv] at hg
          | int n => simp [getattrPlain, getattrEv] at hg
          | str s2 => simp [getattrPlain, getattrEv] at hg
          | enumMember cls i => simp [getattrPlain, getattrEv] at hg
          | quantity m u => simp [getattrPlain, getattrEv] at hg

/- ===================== Claim C1 ====================== -/

/-- Service tree fixture with a NumberSlider wrapping a Quantity at
path panel.slider, as in the spec scenario for composite widgets. -/
def svcC1 : Native :=
  .service [("panel", (.stored,
    .service [("slider", (.stored, .slider (.quantity 5 "volt")))]))]

/-- Claim C1: for a change event on the value member of a NumberSlider
the notification bridge is claimed to publish the update under the
widget's own textual path with the trailing value segment stripped,
the published name always being a path string.  The embedded
notify_ionizer of pydase_service_base/ionizer_interface/ionizer_server.py
instead publishes the resolved parent object itself as the name: the
source contains the NumberSlider branch twice, and the second
assignment overwrites the just-computed parent path string with the
parent object.  At the failing input below the published name is the
NumberSlider object, not the string panel.slider. -/
theorem c1_notify_publishes_object_not_path :
    notify_ionizer svcC1 "panel.slider.value" (.quantity 7 "volt") =
      .ok ⟨.pyobj (.slider (.quantity 5 "volt")), .int 7⟩ ∧
    NotifyName.pyobj (.slider (.quantity 5 "volt")) ≠ .str "panel.slider" :=
  ⟨rfl, by simp⟩

/-- Supporting fact (not a claim): the sibling implementation
notify_Ionizer of icon_service_base/ionizer_interface/ionizer_server.py
publishes the stripped parent path as a string on the same input,
which is the behaviour the claim describes. -/
theorem notify_Ionizer_icon_strips_value :
    notify_Ionizer_icon svcC1 "panel.slider.value" (.quantity 7 "volt") =
      .ok ⟨.str "panel.slider", .int 7⟩ := rfl

/- ===================== Claim C2 ====================== -/

/-- Claim C2 (amended): writing ordinal i to a stored enum-valued
attribute and reading it back through get_param yields the declared
value of the i-th member (its .value, converted to the wire), for all
i within range.  The source set_param selects the member by position
with list(current_value.__class__)[value], and get_param returns
param.value, the member's value, not its name. -/
theorem c2_enum_roundtrip_value (svc : Native) (pre : List String) (last : String)
    (cls : List (String × EnumVal)) (j : Nat) (i : Nat)
    (hres : resolve svc (pre ++ [last]) = .ok (.enumMember cls j))
    (hstored : storedAt svc (pre ++ [last]) = true)
    (hi : i < cls.length) :
    ∃ svc2, set_param svc (pre ++ [last]) (.int i) = (svc2, none) ∧
      get_param svc2 (pre ++ [last]) = .ok (evToNative (cls.getD i ("", .eint 0)).2) := by
  have hdl : (pre ++ [last]).dropLast = pre := by simp
  have hgl : (pre ++ [last]).getLastD "" = last := by simp
  have hsnoc := resolve_snoc pre svc last
  rw [hres] at hsnoc
  cases hp : resolve svc pre with
  | error e => rw [hp] at hsnoc; simp at hsnoc
  | ok parent =>
      rw [hp] at hsnoc
      cases hgp : getattrPlain parent last with
      | none => simp [hgp] at hsnoc
      | some w =>
          simp [hgp] at hsnoc
          subst hsnoc
          have hr1 : resolve parent [last] = .ok (.enumMember cls j) := by
            rw [resolve_cons, hgp]
            rfl
          have hpy : pyIndex cls.length ((i : Nat) : Int) = some i := by
            simp only [pyIndex]
            rw [if_pos ⟨Int.ofNat_nonneg i, by exact_mod_cast hi⟩]
            simp
          obtain ⟨svc2, hset, hres2⟩ :=
            setAttr_stored (pre ++ [last]) svc (.enumMember cls i) hstored
          have henum : strContains "Enum" "Enum" = true := by decide
          have hne1 : ("Enum" : String) ≠ "Quantity" := by decide
          have hne2 : ("Enum" : String) ≠ "NumberSlider" := by decide
          refine ⟨svc2, ?_, ?_⟩
          · simp [set_param, set_param_core, hdl, hgl, hp, hres, typeTag, isInt,
              hr1, hpy, hset, henum, hne1, hne2]
          · simp [get_param, hres2]

/-- Service tree fixture with an enum attribute whose member values
are the ordinals 0 and 1 (an IntEnum-style enumeration), currently at
the first member. -/
def svcEnum : Native :=
  .service [("mode", (.stored, .enumMember [("OFF", .eint 0), ("ON", .eint 1)] 0))]

/-- Claim C2, counterexample to the claim as stated: after writing
ordinal 1 to the mode attribute, get_param returns the member value 1
(an integer), not the declared name "ON" as a string; the source
get_param returns param.value for enumeration members. -/
theorem c2_counterexample :
    (set_param svcEnum ["mode"] (.int 1)).2 = none ∧
    get_param (set_param svcEnum ["mode"] (.int 1)).1 ["mode"] = .ok (.int 1) ∧
    (Except.ok (Native.int 1) : Except Err Native) ≠ .ok (.str "ON") :=
  ⟨rfl, rfl, by simp⟩

/-- Witness instantiating c2_enum_roundtrip_value at the fixture. -/
theorem c2_witness :
    ∃ svc2, set_param svcEnum (([] : List String) ++ ["mode"]) (.int 1) = (svc2, none) ∧
      get_param svc2 (([] : List String) ++ ["mode"]) =
        .ok (evToNative (([("OFF", EnumVal.eint 0), ("ON", EnumVal.eint 1)].getD 1
          ("", .eint 0)).2)) :=
  c2_enum_roundtrip_value svcEnum [] "mode" [("OFF", .eint 0), ("ON", .eint 1)] 0 1
    rfl rfl (by decide)

/- ===================== Claim C5 ====================== -/

/-- Claim C5: writing the integer ordinal n, one past the last valid
position of an enum-valued attribute with n declared members, makes
set_param fail and leaves the tree unchanged.  The failure is the
Python IndexError raised by the unchecked list index
list(current_value.__class__)[value] in the source; the spec names
this condition OrdinalOutOfRangeError.  The exception propagates
before the single mutation point, so the returned tree is the input
tree. -/
theorem c5_enum_ordinal_out_of_range (svc : Native) (pre : List String) (last : String)
    (cls : List (String × EnumVal)) (j : Nat)
    (hres : resolve svc (pre ++ [last]) = .ok (.enumMember cls j)) :
    set_param svc (pre ++ [last]) (.int cls.length) = (svc, some .indexError) := by
  have hdl : (pre ++ [last]).dropLast = pre := by simp
  have hgl : (pre ++ [last]).getLastD "" = last := by simp
  have hsnoc := resolve_snoc pre svc last
  rw [hres] at hsnoc
  cases hp : resolve svc pre with
  | error e => rw [hp] at hsnoc; simp at hsnoc
  | ok parent =>
      rw [hp] at hsnoc
      cases hgp : getattrPlain parent last with
      | none => simp [hgp] at hsnoc
      | some w =>
          simp [hgp] at hsnoc
          subst hsnoc
          have hr1 : resolve parent [last] = .ok (.enumMember cls j) := by
            rw [resolve_cons, hgp]
            rfl
          have hpy : pyIndex cls.length ((cls.length : Nat) : Int) = none := by
            simp only [pyIndex]
            rw [if_neg (by omega), if_neg (by omega)]
          have henum : strContains "Enum" "Enum" = true := by decide
          simp [set_param, set_param_core, hdl, hgl, hp, hres, typeTag, isInt,
            hr1, hpy, henum]

/-- Witness instantiating c5_enum_ordinal_out_of_range at the enum
fixture: writing ordinal 2 to a two-member enumeration raises. -/
theorem c5_witness :
    set_param svcEnum (([] : List String) ++ ["mode"])
      (.int ([("OFF", EnumVal.eint 0), ("ON", EnumVal.eint 1)].length)) =
      (svcEnum, some .indexError) :=
  c5_enum_ordinal_out_of_range svcEnum [] "mode" [("OFF", .eint 0), ("ON", .eint 1)] 0 rfl

/- ===================== Claim C9 ====================== -/

/-- Claim C9: a negative wire ordinal v with -n <= v <= -1 is not
rejected; the unchecked Python list index in set_param honours
negative indexing and selects the member at declared position n + v,
which is then stored. -/
theorem c9_enum_negative_ordinal (svc : Native) (pre : List String) (last : String)
    (cls : List (String × EnumVal)) (j : Nat) (v : Int)
    (hres : resolve svc (pre ++ [last]) = .ok (.enumMember cls j))
    (hstored : storedAt svc (pre ++ [last]) = true)
    (hlo : -(cls.length : Int) ≤ v) (hhi : v ≤ -1) :
    ∃ svc2, set_param svc (pre ++ [last]) (.int v) = (svc2, none) ∧
      resolve svc2 (pre ++ [last]) =
        .ok (.enumMember cls ((cls.length : Int) + v).toNat) := by
  have hdl : (pre ++ [last]).dropLast = pre := by simp
  have hgl : (pre ++ [last]).getLastD "" = last := by simp
  have hsnoc := resolve_snoc pre svc last
  rw [hres] at hsnoc
  cases hp : resolve svc pre with
  | error e => rw [hp] at hsnoc; simp at hsnoc
  | ok parent =>
      rw [hp] at hsnoc
      cases hgp : getattrPlain parent last with
      | none => simp [hgp] at hsnoc
      | some w =>
          simp [hgp] at hsnoc
          subst hsnoc
          have hr1 : resolve parent [last] = .ok (.enumMember cls j) := by
            rw [resolve_cons, hgp]
            rfl
          have hpy : pyIndex cls.length v = some ((cls.length : Int) + v).toNat := by
            simp only [pyIndex]
            rw [if_neg (by omega), if_pos (by constructor <;> omega)]
          have henum : strContains "Enum" "Enum" = true := by decide
          have hne1 : ("Enum" : String) ≠ "Quantity" := by decide
          have hne2 : ("Enum" : String) ≠ "NumberSlider" := by decide
          obtain ⟨svc2, hset, hres2⟩ :=
            setAttr_stored (pre ++ [last]) svc
              (.enumMember cls ((cls.length : Int) + v).toNat) hstored
          refine ⟨svc2, ?_, hres2⟩
          simp [set_param, set_param_core, hdl, hgl, hp, hres, typeTag, isInt,
            hr1, hpy, hset, henum, hne1, hne2]

/-- Witness instantiating c9_enum_negative_ordinal: ordinal -1 on the
two-member fixture selects the member at position 1. -/
theorem c9_witness :
    ∃ svc2, set_param svcEnum (([] : List String) ++ ["mode"]) (.int (-1)) = (svc2, none) ∧
      resolve svc2 (([] : List String) ++ ["mode"]) =
        .ok (.enumMember [("OFF", EnumVal.eint 0), ("ON", EnumVal.eint 1)]
          ((([("OFF", EnumVal.eint 0), ("ON", EnumVal.eint 1)].length : Int) + (-1)).toNat)) :=
  c9_enum_negative_ordinal svcEnum [] "mode" [("OFF", .eint 0), ("ON", .eint 1)] 0 (-1)
    rfl rfl (by decide) (by decide)

/- ===================== Claim C6 ====================== -/

/-- Claim C6: writing a numeric wire value m to a stored attribute
currently holding a quantity with unit u multiplies m by the current
unit (value * current_value.u in the source), so the stored value
becomes the quantity m u with the unit unchanged, and a subsequent
get_param returns the magnitude m. -/
theorem c6_quantity_set_preserves_unit (svc : Native) (pre : List String) (last : String)
    (c : Int) (u : String) (m : Int)
    (hres : resolve svc (pre ++ [last]) = .ok (.quantity c u))
    (hstored : storedAt svc (pre ++ [last]) = true) :
    ∃ svc2, set_param svc (pre ++ [last]) (.int m) = (svc2, none) ∧
      resolve svc2 (pre ++ [last]) = .ok (.quantity m u) ∧
      get_param svc2 (pre ++ [last]) = .ok (.int m) := by
  have hdl : (pre ++ [last]).dropLast = pre := by simp
  have hgl : (pre ++ [last]).getLastD "" = last := by simp
  have hsnoc := resolve_snoc pre svc last
  rw [hres] at hsnoc
  cases hp : resolve svc pre with
  | error e => rw [hp] at hsnoc; simp at hsnoc
  | ok parent =>
      rw [hp] at hsnoc
      cases hgp : getattrPlain parent last with
      | none => simp [hgp] at hsnoc
      | some w =>
          simp [hgp] at hsnoc
          subst hsnoc
          have hr1 : resolve parent [last] = .ok (.quantity c u) := by
            rw [resolve_cons, hgp]
            rfl
          have hqf : strContains "Quantity" "Enum" = false := by decide
          obtain ⟨svc2, hset, hres2⟩ :=
            setAttr_stored (pre ++ [last]) svc (.quantity m u) hstored
          refine ⟨svc2, ?_, hres2, ?_⟩
          · simp [set_param, set_param_core, hdl, hgl, hp, hres, typeTag, isInt,
              hr1, hset, hqf]
          · simp [get_param, hres2]

/-- Service tree fixture with a stored quantity attribute, as in the
spec scenario (gain of 2 dB). -/
def svcQ : Native := .service [("gain", (.stored, .quantity 2 "dB"))]

/-- Witness instantiating c6_quantity_set_preserves_unit: writing 7
to the gain attribute keeps the unit dB. -/
theorem c6_witness :
    ∃ svc2, set_param svcQ (([] : List String) ++ ["gain"]) (.int 7) = (svc2, none) ∧
      resolve svc2 (([] : List String) ++ ["gain"]) = .ok (.quantity 7 "dB") ∧
      get_param svc2 (([] : List String) ++ ["gain"]) = .ok (.int 7) :=
  c6_quantity_set_preserves_unit svcQ [] "gain" 2 "dB" 7 rfl rfl

/- ===================== Claim C7 ====================== -/

/-- Claim C7: writing to a computed (getter-backed, property)
attribute through the icon_service_base set_param does not raise,
leaves the tree unchanged (so a subsequent get_param returns the same
value), and never evaluates the target attribute's getter: the source
guards the coercion step with
isinstance(getattr(type(parent_object), attr_name, None), property),
a class-level descriptor lookup that does not run the getter, and the
parent resolution walks only the proper prefix of the path.  The
final write is the external pydase setter, modelled from the spec as
a silent no-op on computed attributes. -/
theorem c7_property_write_noop (svc : Native) (pre : List String) (last : String)
    (attrs : List (String × AttrKind × Native)) (w value : Native)
    (evs : List (List String))
    (hresEv : resolveEv svc [] pre = .ok (.service attrs, evs))
    (hl : lookupA attrs last = some (.propA, w)) :
    ∃ res, set_param_icon svc (pre ++ [last]) value = .ok res ∧
      res.1 = svc ∧
      get_param_icon res.1 (pre ++ [last]) = get_param_icon svc (pre ++ [last]) ∧
      (pre ++ [last]) ∉ res.2 := by
  have hdl : (pre ++ [last]).dropLast = pre := by simp
  have hgl : (pre ++ [last]).getLastD "" = last := by simp
  have hprop : propAt svc (pre ++ [last]) = true :=
    propAt_of_resolve pre svc attrs last w (resolveEv_fst pre svc [] _ evs hresEv) hl
  have hnoop : setAttrByPath svc (pre ++ [last]) value = .ok svc :=
    setAttr_prop_noop (pre ++ [last]) svc value hprop
  refine ⟨(svc, evs), ?_, rfl, rfl, ?_⟩
  · simp [set_param_icon, hdl, hgl, hresEv, hl, update_DataService_attribute, hnoop]
  · intro hmem
    have hle := resolveEv_len pre svc [] _ evs hresEv _ hmem
    simp only [List.length_append, List.length_cons, List.length_nil] at hle
    omega

/-- Service tree fixture with a computed (property) attribute
temperature on a stored sub-service device. -/
def svcP : Native :=
  .service [("device", (.stored, .service [("temperature", (.propA, .int 42))]))]

/-- Witness instantiating c7_property_write_noop at the property
fixture. -/
theorem c7_witness :
    ∃ res, set_param_icon svcP (["device"] ++ ["temperature"]) (.int 5) = .ok res ∧
      res.1 = svcP ∧
      get_param_icon res.1 (["device"] ++ ["temperature"]) =
        get_param_icon svcP (["device"] ++ ["temperature"]) ∧
      (["device"] ++ ["temperature"]) ∉ res.2 :=
  c7_property_write_noop svcP ["device"] "temperature"
    [("temperature", (.propA, .int 42))] (.int 42) (.int 5) [] rfl rfl

/- ===================== Claim C4 ====================== -/

/-- Claim C4 (amended): a mapping key containing a double-quote
character is not rejected; the source contains no UnsupportedKeyError
(or any key check at all) and embeds the key verbatim between double
quotes in the flat path, so flattening succeeds and emits the entry
under the ambiguous path key["k"]. -/
theorem c4_quoted_key_verbatim (key k : String) (o f : SObj)
    (hq : strContains k "\"" = true)
    (hf : flatten_obj o = .ok f) :
    flatten_obj_value [(key, .sdict "dict" [(k, o)])] =
      .ok [(key ++ "[\"" ++ k ++ "\"]", f)] := by
  simp [flatten_obj_value, flatten_entries, flatten_dict_items, hf, dinsert, dkeys]

/-- Claim C4, counterexample to the claim as stated: flattening a dict
with the key a"b (which contains a double quote) succeeds and emits a
flat path, instead of failing with UnsupportedKeyError. -/
theorem c4_counterexample :
    flatten_obj_value [("d", .sdict "dict" [("a\"b", .prim "int" "1")])] =
      .ok [("d[\"a\"b\"]", .prim "int" "1")] ∧
    strContains "a\"b" "\"" = true := by
  constructor
  · simp [flatten_obj_value, flatten_entries, flatten_dict_items, flatten_obj,
      dinsert, dset, dkeys, containerTypes]
  · decide

/-- Witness instantiating c4_quoted_key_verbatim. -/
theorem c4_witness :
    flatten_obj_value [("d", .sdict "dict" [("a\"b", .prim "int" "1")])] =
      .ok [("d" ++ "[\"" ++ "a\"b" ++ "\"]", .prim "int" "1")] :=
  c4_quoted_key_verbatim "d" "a\"b" (.prim "int" "1") (.prim "int" "1") (by decide)
    (by simp [flatten_obj, containerTypes])

/- ===================== Flattening: key structure lemmas ====================== -/

/-- Boolean test for the two expansion guards of the flattening loop:
a serialized object of type "list" whose value is a list, or of type
"dict" whose value is a dict. -/
def expandableB : SObj → Bool
  | .slist t _ => t == "list"
  | .sdict t _ => t == "dict"
  | .prim _ _ => false

/-- Flat keys produced for the elements of a list-typed entry. -/
def itemKeys (key : String) : Nat → List SObj → List String
  | _, [] => []
  | i, _ :: rest => (key ++ "[" ++ toString i ++ "]") :: itemKeys key (i + 1) rest

/-- Flat keys produced for the entries of a dict-typed entry. -/
def dictKeys (key : String) (kvs : List (String × SObj)) : List String :=
  kvs.map (fun p => key ++ "[\"" ++ p.1 ++ "\"]")

/-- Flat keys produced for one entry of the flattening loop. -/
def entryKeys (key : String) : SObj → List String
  | .slist t items => if t = "list" then itemKeys key 0 items else [key]
  | .sdict t kvs => if t = "dict" then dictKeys key kvs else [key]
  | .prim _ _ => [key]

/-- All flat keys the flattening loop can produce for an input
dictionary: each input entry contributes its entry keys in order. -/
def derivedKeys : List (String × SObj) → List String
  | [] => []
  | (k, v) :: rest => entryKeys k v ++ derivedKeys rest

theorem dkeys_append (a b : List (String × SObj)) :
    dkeys (a ++ b) = dkeys a ++ dkeys b := by
  simp [dkeys]

theorem contains_false_of_not_mem (l : List String) (k : String) (h : k ∉ l) :
    l.contains k = false := by
  simpa using h

theorem dkeys_dset (d : List (String × SObj)) (k : String) (v : SObj) :
    dkeys (dset d k v) = dkeys d := by
  induction d with
  | nil => simp [dset]
  | cons hd tl ih =>
      obtain ⟨k1, v1⟩ := hd
      by_cases hk : k1 = k
      · subst hk
        simp [dset, dkeys]
      · simp [dset, hk, dkeys] at ih ⊢
        exact ih

theorem dinsert_fresh (d : List (String × SObj)) (k : String) (v : SObj)
    (h : k ∉ dkeys d) : dinsert d k v = d ++ [(k, v)] := by
  have hc : ¬((dkeys d).contains k = true) := by simpa using h
  rw [dinsert, if_neg hc]

theorem dkeys_dinsert_sub (d : List (String × SObj)) (k : String) (v : SObj) :
    dkeys (dinsert d k v) ⊆ dkeys d ++ [k] := by
  by_cases h : (dkeys d).contains k = true
  · intro x hx
    rw [dinsert, if_pos h, dkeys_dset] at hx
    exact List.mem_append_left _ hx
  · intro x hx
    rw [dinsert, if_neg h, dkeys_append] at hx
    simpa [dkeys] using hx

theorem dinsert_nodup (d : List (String × SObj)) (k : String) (v : SObj)
    (h : (dkeys d).Nodup) : (dkeys (dinsert d k v)).Nodup := by
  by_cases hc : (dkeys d).contains k = true
  · rw [dinsert, if_pos hc, dkeys_dset]
    exact h
  · rw [dinsert, if_neg hc, dkeys_append]
    have hk : k ∉ dkeys d := fun hmem => hc (by simpa using hmem)
    have hdk : dkeys [(k, v)] = [k] := rfl
    rw [hdk]
    refine List.Nodup.append h (List.nodup_singleton k) ?_
    intro a ha hb
    simp at hb
    subst hb
    exact hk ha

theorem mem_dset_of_ne (d : List (String × SObj)) (k0 : String) (v0 : SObj)
    (k : String) (v : SObj) (h : (k0, v0) ∈ d) (hne : k0 ≠ k) :
    (k0, v0) ∈ dset d k v := by
  induction d with
  | nil => simp at h
  | cons hd tl ih =>
      obtain ⟨k1, v1⟩ := hd
      by_cases hk : k1 = k
      · subst hk
        rw [dset, if_pos rfl]
        rcases List.mem_cons.mp h with heq | htl
        · exact absurd (congrArg Prod.fst heq) hne
        · exact List.mem_cons_of_mem _ htl
      · rw [dset, if_neg hk]
        rcases List.mem_cons.mp h with heq | htl
        · exact heq ▸ List.mem_cons_self _ _
        · exact List.mem_cons_of_mem _ (ih htl)

theorem mem_dinsert_of_ne (d : List (String × SObj)) (k0 : String) (v0 : SObj)
    (k : String) (v : SObj) (h : (k0, v0) ∈ d) (hne : k0 ≠ k) :
    (k0, v0) ∈ dinsert d k v := by
  by_cases hc : (dkeys d).contains k = true
  · rw [dinsert, if_pos hc]
    exact mem_dset_of_ne d k0 v0 k v h hne
  · rw [dinsert, if_neg hc]
    exact List.mem_append_left _ h

theorem flatten_list_items_keys (key : String) (items : List SObj) :
    ∀ (i : Nat) (acc r : List (String × SObj)),
      flatten_list_items key i items acc = .ok r →
      dkeys r ⊆ dkeys acc ++ itemKeys key i items := by
  induction items with
  | nil =>
      intro i acc r h
      simp [flatten_list_items] at h
      simp [h, itemKeys]
  | cons x rest ih =>
      intro i acc r h
      rw [flatten_list_items] at h
      cases hf : flatten_obj x with
      | error e => rw [hf] at h; simp at h
      | ok f =>
          rw [hf] at h
          simp only [] at h
          have hsub := ih (i + 1) (dinsert acc (key ++ "[" ++ toString i ++ "]") f) r h
          intro a ha
          have := hsub ha
          rcases List.mem_append.mp this with h1 | h2
          · have := dkeys_dinsert_sub acc (key ++ "[" ++ toString i ++ "]") f h1
            rcases List.mem_append.mp this with h3 | h4
            · exact List.mem_append_left _ h3
            · simp at h4
              subst h4
              refine List.mem_append_right _ ?_
              simp [itemKeys]
          · refine List.mem_append_right _ ?_
            simp [itemKeys]
            right
            exact h2

theorem flatten_dict_items_keys (key : String) (kvs : List (String × SObj)) :
    ∀ (acc r : List (String × SObj)),
      flatten_dict_items key kvs acc = .ok r →
      dkeys r ⊆ dkeys acc ++ dictKeys key kvs := by
  induction kvs with
  | nil =>
      intro acc r h
      simp [flatten_dict_items] at h
      simp [h, dictKeys]
  | cons p rest ih =>
      obtain ⟨k1, v1⟩ := p
      intro acc r h
      rw [flatten_dict_items] at h
      cases hf : flatten_obj v1 with
      | error e => rw [hf] at h; simp at h
      | ok f =>
          rw [hf] at h
          simp only [] at h
          have hsub := ih (dinsert acc (key ++ "[\"" ++ k1 ++ "\"]") f) r h
          intro a ha
          have := hsub ha
          rcases List.mem_append.mp this with h1 | h2
          · have := dkeys_dinsert_sub acc (key ++ "[\"" ++ k1 ++ "\"]") f h1
            rcases List.mem_append.mp this with h3 | h4
            · exact List.mem_append_left _ h3
            · simp at h4
              subst h4
              refine List.mem_append_right _ ?_
              simp [dictKeys]
          · refine List.mem_append_right _ ?_
            simp [dictKeys] at h2 ⊢
            right
            exact h2

theorem flatten_list_items_mem (key : String) (items : List SObj) :
    ∀ (i : Nat) (acc r : List (String × SObj)) (k0 : String) (v0 : SObj),
      flatten_list_items key i items acc = .ok r → (k0, v0) ∈ acc →
      k0 ∉ itemKeys key i items → (k0, v0) ∈ r := by
  induction items with
  | nil =>
      intro i acc r k0 v0 h hmem _
      simp [flatten_list_items] at h
      exact h ▸ hmem
  | cons x rest ih =>
      intro i acc r k0 v0 h hmem hk
      rw [flatten_list_items] at h
      cases hf : flatten_obj x with
      | error e => rw [hf] at h; simp at h
      | ok f =>
          rw [hf] at h
          simp only [] at h
          have hne : k0 ≠ key ++ "[" ++ toString i ++ "]" := by
            intro heq
            exact hk (by simp [itemKeys, heq])
          have hk2 : k0 ∉ itemKeys key (i + 1) rest := by
            intro hmem2
            exact hk (by simp [itemKeys]; right; exact hmem2)
          exact ih (i + 1) _ r k0 v0 h
            (mem_dinsert_of_ne acc k0 v0 _ f hmem hne) hk2

theorem flatten_dict_items_mem (key : String) (kvs : List (String × SObj)) :
    ∀ (acc r : List (String × SObj)) (k0 : String) (v0 : SObj),
      flatten_dict_items key kvs acc = .ok r → (k0, v0) ∈ acc →
      k0 ∉ dictKeys key kvs → (k0, v0) ∈ r := by
  induction kvs with
  | nil =>
      intro acc r k0 v0 h hmem _
      simp [flatten_dict_items] at h
      exact h ▸ hmem
  | cons p rest ih =>
      obtain ⟨k1, v1⟩ := p
      intro acc r k0 v0 h hmem hk
      rw [flatten_dict_items] at h
      cases hf : flatten_obj v1 with
      | error e => rw [hf] at h; simp at h
      | ok f =>
          rw [hf] at h
          simp only [] at h
          have hne : k0 ≠ key ++ "[\"" ++ k1 ++ "\"]" := by
            intro heq
            exact hk (by simp [dictKeys, heq])
          have hk2 : k0 ∉ dictKeys key rest := by
            intro hmem2
            refine hk ?_
            simp [dictKeys] at hmem2 ⊢
            right
            exact hmem2
          exact ih _ r k0 v0 h (mem_dinsert_of_ne acc k0 v0 _ f hmem hne) hk2

theorem flatten_list_items_nodup (key : String) (items : List SObj) :
    ∀ (i : Nat) (acc r : List (String × SObj)),
      flatten_list_items key i items acc = .ok r → (dkeys acc).Nodup →
      (dkeys r).Nodup := by
  induction items with
  | nil =>
      intro i acc r h hacc
      simp [flatten_list_items] at h
      exact h ▸ hacc
  | cons x rest ih =>
      intro i acc r h hacc
      rw [flatten_list_items] at h
      cases hf : flatten_obj x with
      | error e => rw [hf] at h; simp at h
      | ok f =>
          rw [hf] at h
          simp only [] at h
          exact ih (i + 1) _ r h (dinsert_nodup acc _ f hacc)

theorem flatten_dict_items_nodup (key : String) (kvs : List (String × SObj)) :
    ∀ (acc r : List (String × SObj)),
      flatten_dict_items key kvs acc = .ok r → (dkeys acc).Nodup →
      (dkeys r).Nodup := by
  induction kvs with
  | nil =>
      intro acc r h hacc
      simp [flatten_dict_items] at h
      exact h ▸ hacc
  | cons p rest ih =>
      obtain ⟨k1, v1⟩ := p
      intro acc r h hacc
      rw [flatten_dict_items] at h
      cases hf : flatten_obj v1 with
      | error e => rw [hf] at h; simp at h
      | ok f =>
          rw [hf] at h
          simp only [] at h
          exact ih _ r h (dinsert_nodup acc _ f hacc)

theorem flatten_entries_step (key : String) (value : SObj)
    (rest acc r : List (String × SObj))
    (h : flatten_entries ((key, value) :: rest) acc = .ok r) :
    ∃ acc2, flatten_entries rest acc2 = .ok r ∧
      dkeys acc2 ⊆ dkeys acc ++ entryKeys key value ∧
      ((dkeys acc).Nodup → (dkeys acc2).Nodup) ∧
      (∀ k0 v0, (k0, v0) ∈ acc → k0 ∉ entryKeys key value → (k0, v0) ∈ acc2) := by
  rw [flatten_entries.eq_def] at h
  cases value with
  | slist t items =>
      simp only [] at h
      by_cases ht : t = "list"
      · subst ht
        rw [if_pos rfl] at h
        cases hli : flatten_list_items key 0 items acc with
        | error e => rw [hli] at h; simp at h
        | ok acc2 =>
            rw [hli] at h
            simp only [] at h
            refine ⟨acc2, h, ?_, ?_, ?_⟩
            · simpa [entryKeys] using flatten_list_items_keys key items 0 acc acc2 hli
            · exact fun hnd => flatten_list_items_nodup key items 0 acc acc2 hli hnd
            · intro k0 v0 hmem hk
              exact flatten_list_items_mem key items 0 acc acc2 k0 v0 hli hmem
                (by simpa [entryKeys] using hk)
      · rw [if_neg ht] at h
        cases hf : flatten_obj (.slist t items) with
        | error e => rw [hf] at h; simp at h
        | ok f =>
            rw [hf] at h
            simp only [] at h
            refine ⟨dinsert acc key f, h, ?_, ?_, ?_⟩
            · simpa [entryKeys, ht] using dkeys_dinsert_sub acc key f
            · exact fun hnd => dinsert_nodup acc key f hnd
            · intro k0 v0 hmem hk
              exact mem_dinsert_of_ne acc k0 v0 key f hmem
                (by simpa [entryKeys, ht] using hk)
  | sdict t kvs =>
      simp only [] at h
      by_cases ht : t = "dict"
      · subst ht
        rw [if_pos rfl] at h
        cases hdi : flatten_dict_items key kvs acc with
        | error e => rw [hdi] at h; simp at h
        | ok acc2 =>
            rw [hdi] at h
            simp only [] at h
            refine ⟨acc2, h, ?_, ?_, ?_⟩
            · simpa [entryKeys] using flatten_dict_items_keys key kvs acc acc2 hdi
            · exact fun hnd => flatten_dict_items_nodup key kvs acc acc2 hdi hnd
            · intro k0 v0 hmem hk
              exact flatten_dict_items_mem key kvs acc acc2 k0 v0 hdi hmem
                (by simpa [entryKeys] using hk)
      · rw [if_neg ht] at h
        cases hf : flatten_obj (.sdict t kvs) with
        | error e => rw [hf] at h; simp at h
        | ok f =>
            rw [hf] at h
            simp only [] at h
            refine ⟨dinsert acc key f, h, ?_, ?_, ?_⟩
            · simpa [entryKeys, ht] using dkeys_dinsert_sub acc key f
            · exact fun hnd => dinsert_nodup acc key f hnd
            · intro k0 v0 hmem hk
              exact mem_dinsert_of_ne acc k0 v0 key f hmem
                (by simpa [entryKeys, ht] using hk)
  | prim t v =>
      simp only [] at h
      cases hf : flatten_obj (.prim t v) with
      | error e => rw [hf] at h; simp at h
      | ok f =>
          rw [hf] at h
          simp only [] at h
          refine ⟨dinsert acc key f, h, ?_, ?_, ?_⟩
          · simpa [entryKeys] using dkeys_dinsert_sub acc key f
          · exact fun hnd => dinsert_nodup acc key f hnd
          · intro k0 v0 hmem hk
            exact mem_dinsert_of_ne acc k0 v0 key f hmem
              (by simpa [entryKeys] using hk)

theorem flatten_entries_step_plain (key : String) (value : SObj)
    (rest acc r : List (String × SObj))
    (h : flatten_entries ((key, value) :: rest) acc = .ok r)
    (hne : expandableB value = false) :
    ∃ f, flatten_obj value = .ok f ∧ flatten_entries rest (dinsert acc key f) = .ok r := by
  rw [flatten_entries.eq_def] at h
  cases value with
  | slist t items =>
      simp only [] at h
      have ht : ¬(t = "list") := by
        intro heq
        subst heq
        simp [expandableB] at hne
      rw [if_neg ht] at h
      cases hf : flatten_obj (.slist t items) with
      | error e => rw [hf] at h; simp at h
      | ok f =>
          rw [hf] at h
          simp only [] at h
          exact ⟨f, rfl, h⟩
  | sdict t kvs =>
      simp only [] at h
      have ht : ¬(t = "dict") := by
        intro heq
        subst heq
        simp [expandableB] at hne
      rw [if_neg ht] at h
      cases hf : flatten_obj (.sdict t kvs) with
      | error e => rw [hf] at h; simp at h
      | ok f =>
          rw [hf] at h
          simp only [] at h
          exact ⟨f, rfl, h⟩
  | prim t v =>
      simp only [] at h
      cases hf : flatten_obj (.prim t v) with
      | error e => rw [hf] at h; simp at h
      | ok f =>
          rw [hf] at h
          simp only [] at h
          exact ⟨f, rfl, h⟩

theorem entryKeys_plain (k : String) (o : SObj) (h : expandableB o = false) :
    entryKeys k o = [k] := by
  cases o with
  | slist t items =>
      have ht : ¬(t = "list") := by
        intro heq
        subst heq
        simp [expandableB] at h
      simp [entryKeys, ht]
  | sdict t kvs =>
      have ht : ¬(t = "dict") := by
        intro heq
        subst heq
        simp [expandableB] at h
      simp [entryKeys, ht]
  | prim t v => simp [entryKeys]

theorem flatten_entries_keys (l : List (String × SObj)) :
    ∀ (acc r : List (String × SObj)),
      flatten_entries l acc = .ok r → dkeys r ⊆ dkeys acc ++ derivedKeys l := by
  induction l with
  | nil =>
      intro acc r h
      simp [flatten_entries] at h
      simp [h ▸ List.Subset.refl (dkeys acc), derivedKeys, h]
  | cons p rest ih =>
      obtain ⟨key, value⟩ := p
      intro acc r h
      obtain ⟨acc2, h2, hsub, _, _⟩ := flatten_entries_step key value rest acc r h
      intro a ha
      rcases List.mem_append.mp (ih acc2 r h2 ha) with h1 | h1
      · rcases List.mem_append.mp (hsub h1) with h3 | h3
        · exact List.mem_append_left _ h3
        · refine List.mem_append_right _ ?_
          simp [derivedKeys]
          left
          exact h3
      · refine List.mem_append_right _ ?_
        simp [derivedKeys]
        right
        exact h1

theorem flatten_entries_mem_pre (l : List (String × SObj)) :
    ∀ (acc r : List (String × SObj)) (k0 : String) (v0 : SObj),
      flatten_entries l acc = .ok r → (k0, v0) ∈ acc → k0 ∉ derivedKeys l →
      (k0, v0) ∈ r := by
  induction l with
  | nil =>
      intro acc r k0 v0 h hmem _
      simp [flatten_entries] at h
      exact h ▸ hmem
  | cons p rest ih =>
      obtain ⟨key, value⟩ := p
      intro acc r k0 v0 h hmem hk
      obtain ⟨acc2, h2, _, _, hpre⟩ := flatten_entries_step key value rest acc r h
      have hk1 : k0 ∉ entryKeys key value := by
        intro hx
        exact hk (by simp [derivedKeys]; left; exact hx)
      have hk2 : k0 ∉ derivedKeys rest := by
        intro hx
        exact hk (by simp [derivedKeys]; right; exact hx)
      exact ih acc2 r k0 v0 h2 (hpre k0 v0 hmem hk1) hk2

theorem flatten_entries_emits (l : List (String × SObj)) :
    ∀ (acc r : List (String × SObj)) (k : String) (o : SObj),
      flatten_entries l acc = .ok r → (k, o) ∈ l → expandableB o = false →
      (dkeys acc ++ derivedKeys l).Nodup →
      ∃ o', flatten_obj o = .ok o' ∧ (k, o') ∈ r := by
  induction l with
  | nil => intro acc r k o _ hmem; simp at hmem
  | cons p rest ih =>
      obtain ⟨k1, v1⟩ := p
      intro acc r k o h hmem hne hnodup
      rcases List.mem_cons.mp hmem with heq | htl
      · obtain ⟨hk1, hv1⟩ := Prod.ext_iff.mp heq
        subst hk1
        subst hv1
        obtain ⟨f, hf, h2⟩ := flatten_entries_step_plain k o rest acc r h hne
        rw [show derivedKeys ((k, o) :: rest) = entryKeys k o ++ derivedKeys rest from rfl,
          entryKeys_plain k o hne] at hnodup
        rw [List.nodup_append] at hnodup
        obtain ⟨ndacc, ndmid, disj⟩ := hnodup
        rw [List.nodup_append] at ndmid
        obtain ⟨_, ndrest, disj2⟩ := ndmid
        have hkacc : k ∉ dkeys acc := by
          intro hx
          exact disj hx (List.mem_append_left _ (List.mem_singleton_self k))
        have hkrest : k ∉ derivedKeys rest := by
          intro hx
          exact disj2 (List.mem_singleton_self k) hx
        have hmem2 : (k, f) ∈ dinsert acc k f := by
          rw [dinsert_fresh acc k f hkacc]
          exact List.mem_append_right _ (List.mem_singleton_self _)
        exact ⟨f, hf, flatten_entries_mem_pre rest _ r k f h2 hmem2 hkrest⟩
      · obtain ⟨acc2, h2, hsub, hnd, _⟩ := flatten_entries_step k1 v1 rest acc r h
        rw [show derivedKeys ((k1, v1) :: rest) = entryKeys k1 v1 ++ derivedKeys rest from rfl,
          ← List.append_assoc] at hnodup
        rw [List.nodup_append] at hnodup
        obtain ⟨ndL, ndrest, disjL⟩ := hnodup
        have ndacc : (dkeys acc).Nodup := (List.nodup_append.mp ndL).1
        have ndacc2 : (dkeys acc2).Nodup := hnd ndacc
        have disj2 : (dkeys acc2).Disjoint (derivedKeys rest) := by
          intro a ha hb
          exact disjL (hsub ha) hb
        exact ih acc2 r k o h2 htl hne (List.Nodup.append ndacc2 ndrest disj2)

/- ===================== Claim C3 ====================== -/

/-- Claim C3 (amended): flattening expands only list-typed and
dict-typed containers into bracketed flat entries; a generic object
container entry (and every other non-expandable entry) at key P is
emitted as a single entry at P itself, its value recursively
flattened, and no dotted member entry P.m is produced: every emitted
key is one of the derived keys P, P[i], or P["k"] of the input
entries.  The no-key-collision hypothesis makes the statement exact
(Python dictionaries cannot carry duplicate keys, but distinct input
entries could in principle derive the same flat key). -/
theorem c3_generic_container_passthrough (l r : List (String × SObj)) (k : String)
    (o : SObj)
    (hok : flatten_obj_value l = .ok r)
    (hnodup : (derivedKeys l).Nodup)
    (hmem : (k, o) ∈ l)
    (hne : expandableB o = false) :
    dkeys r ⊆ derivedKeys l ∧ ∃ o', flatten_obj o = .ok o' ∧ (k, o') ∈ r := by
  have hok2 : flatten_entries l [] = .ok r := hok
  constructor
  · have := flatten_entries_keys l [] r hok2
    simpa [dkeys] using this
  · exact flatten_entries_emits l [] r k o hok2 hmem hne (by simpa [dkeys] using hnodup)

/-- Claim C3, counterexample to the claim as stated: flattening a
snapshot with a generic object container (a DataService node) under
key sub does not emit the member entry sub.a; it emits the container
itself, unexpanded, under its own key sub. -/
theorem c3_counterexample :
    flatten_obj_value [("sub", .sdict "DataService" [("a", .prim "int" "1")])] =
      .ok [("sub", .sdict "DataService" [("a", .prim "int" "1")])] ∧
    ("sub", SObj.sdict "DataService" [("a", .prim "int" "1")]) ∈
      [("sub", SObj.sdict "DataService" [("a", SObj.prim "int" "1")])] ∧
    "sub.a" ∉ dkeys [("sub", SObj.sdict "DataService" [("a", SObj.prim "int" "1")])] := by
  refine ⟨?_, by simp, by simp [dkeys]⟩
  simp [flatten_obj_value, flatten_entries, flatten_dict_items, flatten_list_items,
    flatten_obj, dinsert, dset, dkeys, containerTypes]

/-- Witness instantiating c3_generic_container_passthrough at the
DataService fixture. -/
theorem c3_witness :
    dkeys [("sub", SObj.sdict "DataService" [("a", SObj.prim "int" "1")])] ⊆
      derivedKeys [("sub", SObj.sdict "DataService" [("a", SObj.prim "int" "1")])] ∧
    ∃ o', flatten_obj (SObj.sdict "DataService" [("a", SObj.prim "int" "1")]) = .ok o' ∧
      ("sub", o') ∈ [("sub", SObj.sdict "DataService" [("a", SObj.prim "int" "1")])] :=
  c3_generic_container_passthrough
    [("sub", .sdict "DataService" [("a", .prim "int" "1")])]
    [("sub", .sdict "DataService" [("a", .prim "int" "1")])]
    "sub" (.sdict "DataService" [("a", .prim "int" "1")])
    (by simp [flatten_obj_value, flatten_entries, flatten_dict_items, flatten_list_items,
      flatten_obj, dinsert, dset, dkeys, containerTypes])
    (by decide) (by simp) rfl

/- ===================== Flattening: idempotence machinery ====================== -/

/-- An already-flat serialized object: flattening it again returns it
unchanged and the flattening loop will not expand it. -/
def FixedP (o : SObj) : Prop := flatten_obj o = .ok o ∧ expandableB o = false

theorem mem_dset_cases (d : List (String × SObj)) (k : String) (v : SObj)
    (p : String × SObj) (h : p ∈ dset d k v) : p ∈ d ∨ p = (k, v) := by
  induction d with
  | nil => simp [dset] at h
  | cons hd tl ih =>
      obtain ⟨k1, v1⟩ := hd
      by_cases hk : k1 = k
      · subst hk
        rw [dset, if_pos rfl] at h
        rcases List.mem_cons.mp h with heq | htl
        · exact Or.inr heq
        · exact Or.inl (List.mem_cons_of_mem _ htl)
      · rw [dset, if_neg hk] at h
        rcases List.mem_cons.mp h with heq | htl
        · exact Or.inl (heq ▸ List.mem_cons_self _ _)
        · rcases ih htl with h1 | h1
          · exact Or.inl (List.mem_cons_of_mem _ h1)
          · exact Or.inr h1

theorem allFixed_dinsert (acc : List (String × SObj)) (k : String) (f : SObj)
    (hacc : ∀ p ∈ acc, FixedP p.2) (hf : FixedP f) :
    ∀ p ∈ dinsert acc k f, FixedP p.2 := by
  intro p hp
  by_cases hc : (dkeys acc).contains k = true
  · rw [dinsert, if_pos hc] at hp
    rcases mem_dset_cases acc k f p hp with h1 | h1
    · exact hacc p h1
    · rw [h1]
      exact hf
  · rw [dinsert, if_neg hc] at hp
    rcases List.mem_append.mp hp with h1 | h1
    · exact hacc p h1
    · simp at h1
      rw [h1]
      exact hf

theorem flatten_entries_cons_plain (k : String) (v : SObj)
    (rest acc : List (String × SObj)) (f : SObj)
    (hne : expandableB v = false) (hf : flatten_obj v = .ok f) :
    flatten_entries ((k, v) :: rest) acc = flatten_entries rest (dinsert acc k f) := by
  rw [flatten_entries.eq_def]
  cases v with
  | slist t items =>
      simp only []
      have ht : ¬(t = "list") := by
        intro heq
        subst heq
        simp [expandableB] at hne
      rw [if_neg ht, hf]
  | sdict t kvs =>
      simp only []
      have ht : ¬(t = "dict") := by
        intro heq
        subst heq
        simp [expandableB] at hne
      rw [if_neg ht, hf]
  | prim t pv =>
      simp only []
      rw [hf]

theorem flatten_entries_id (l : List (String × SObj)) :
    ∀ acc, (∀ p ∈ l, FixedP p.2) → (dkeys (acc ++ l)).Nodup →
      flatten_entries l acc = .ok (acc ++ l) := by
  induction l with
  | nil =>
      intro acc _ _
      simp [flatten_entries]
  | cons p rest ih =>
      obtain ⟨k, v⟩ := p
      intro acc hfix hnd
      obtain ⟨hfv, hne⟩ := hfix (k, v) (List.mem_cons_self _ _)
      rw [flatten_entries_cons_plain k v rest acc v hne hfv]
      have hkacc : k ∉ dkeys acc := by
        intro hx
        rw [dkeys_append, List.nodup_append] at hnd
        exact hnd.2.2 hx (by simp [dkeys])
      rw [dinsert_fresh acc k v hkacc]
      have hres := ih (acc ++ [(k, v)])
        (fun q hq => hfix q (List.mem_cons_of_mem _ hq))
        (by simpa using hnd)
      rw [hres]
      simp

mutual

/-- Decides the restriction under which flattening is idempotent, for
an object in element position (a list element, a dict value, or a
non-expanded entry value): no list container anywhere among such
positions, no dict-typed container either (a dict emitted in element
position would be expanded only by a second flattening pass), and the
value dictionaries of container-typed objects recursively good. -/
def goodObj : SObj → Bool
  | .prim t _ => !(containerTypes.contains t)
  | .slist t _ => !(containerTypes.contains t)
  | .sdict t entries =>
      !(t == "list") && !(t == "dict") &&
        (!(containerTypes.contains t) || goodEntries entries)
termination_by o => sizeOf o

/-- Entry list of a dictionary whose flattening is idempotent: every
entry value is good in entry position. -/
def goodEntries : List (String × SObj) → Bool
  | [] => true
  | (_, v) :: rest => goodVal v && goodEntries rest
termination_by l => sizeOf l

/-- Entry-position goodness: a list-typed entry is expanded, so its
elements must be good in element position; likewise a dict-typed
entry; anything else must be good in element position itself. -/
def goodVal : SObj → Bool
  | .slist t items => if t = "list" then goodItems items else !(containerTypes.contains t)
  | .sdict t kvs =>
      if t = "dict" then goodDictVals kvs
      else !(t == "list") && (!(containerTypes.contains t) || goodEntries kvs)
  | .prim t _ => !(containerTypes.contains t)
termination_by o => sizeOf o

/-- Element-position goodness for the elements of a list-typed entry. -/
def goodItems : List SObj → Bool
  | [] => true
  | x :: rest => goodObj x && goodItems rest
termination_by l => sizeOf l

/-- Element-position goodness for the values of a dict-typed entry. -/
def goodDictVals : List (String × SObj) → Bool
  | [] => true
  | (_, v) :: rest => goodObj v && goodDictVals rest
termination_by l => sizeOf l

end

mutual

theorem flatten_obj_good : ∀ (o : SObj), goodObj o = true →
    ∃ o2, flatten_obj o = .ok o2 ∧ FixedP o2
  | .prim t v, h => by
      have htm : t ∉ containerTypes := by simpa [goodObj] using h
      exact ⟨.prim t v, by simp [flatten_obj, htm],
        by simp [FixedP, flatten_obj, htm, expandableB]⟩
  | .slist t items, h => by
      have htm : t ∉ containerTypes := by simpa [goodObj] using h
      have htl : ¬(t = "list") := by
        intro heq
        rw [heq] at htm
        exact htm (by decide)
      exact ⟨.slist t items, by simp [flatten_obj, htm],
        by simp [FixedP, flatten_obj, htm, expandableB, htl]⟩
  | .sdict t entries, h => by
      have h2 : (¬(t = "list") ∧ ¬(t = "dict")) ∧
          (t ∉ containerTypes ∨ goodEntries entries = true) := by
        simpa [goodObj] using h
      obtain ⟨⟨ht1, ht2⟩, h3⟩ := h2
      by_cases hct : t ∈ containerTypes
      · have hge : goodEntries entries = true := by
          rcases h3 with h4 | h4
          · exact absurd hct h4
          · exact h4
        obtain ⟨r, hr, hfix, hnd⟩ :=
          flatten_entries_good entries [] hge (by simp) (by simp [dkeys])
        have hid := flatten_entries_id r [] hfix (by simpa [dkeys] using hnd)
        simp only [List.nil_append] at hid
        refine ⟨.sdict t r, by simp [flatten_obj, hct, hr], ?_, ?_⟩
        · simp [flatten_obj, hct, hid]
        · simp [expandableB, ht2]
      · exact ⟨.sdict t entries, by simp [flatten_obj, hct],
          by simp [FixedP, flatten_obj, hct, expandableB, ht2]⟩
termination_by o _ => sizeOf o

theorem flatten_entries_good : ∀ (l acc : List (String × SObj)),
    goodEntries l = true → (∀ p ∈ acc, FixedP p.2) → (dkeys acc).Nodup →
    ∃ r, flatten_entries l acc = .ok r ∧ (∀ p ∈ r, FixedP p.2) ∧ (dkeys r).Nodup
  | [], acc, _, hfa, hnd => ⟨acc, by simp [flatten_entries], hfa, hnd⟩
  | (key, v) :: rest, acc, hg, hfa, hnd => by
      have hsplit : goodVal v = true ∧ goodEntries rest = true := by
        simpa [goodEntries] using hg
      obtain ⟨hgv, hgrest⟩ := hsplit
      cases v with
      | slist t items =>
          by_cases ht : t = "list"
          · subst ht
            have hgi : goodItems items = true := by simpa [goodVal] using hgv
            obtain ⟨acc2, hok2, hfix2, hnd2⟩ :=
              flatten_items_good key 0 items acc hgi hfa hnd
            obtain ⟨r, hr, hfix3, hnd3⟩ :=
              flatten_entries_good rest acc2 hgrest hfix2 hnd2
            refine ⟨r, ?_, hfix3, hnd3⟩
            rw [flatten_entries.eq_def]
            simp only []
            rw [if_pos trivial, hok2]
            exact hr
          · have hgo : goodObj (.slist t items) = true := by
              simpa [goodVal, ht, goodObj] using hgv
            obtain ⟨f, hf, hfix1⟩ := flatten_obj_good (.slist t items) hgo
            obtain ⟨r, hr, hfix3, hnd3⟩ :=
              flatten_entries_good rest (dinsert acc key f) hgrest
                (allFixed_dinsert acc key f hfa hfix1) (dinsert_nodup acc key f hnd)
            refine ⟨r, ?_, hfix3, hnd3⟩
            rw [flatten_entries_cons_plain key _ rest acc f (by simp [expandableB, ht]) hf]
            exact hr
      | sdict t kvs =>
          by_cases ht : t = "dict"
          · subst ht
            have hgd : goodDictVals kvs = true := by simpa [goodVal] using hgv
            obtain ⟨acc2, hok2, hfix2, hnd2⟩ :=
              flatten_dictvals_good key kvs acc hgd hfa hnd
            obtain ⟨r, hr, hfix3, hnd3⟩ :=
              flatten_entries_good rest acc2 hgrest hfix2 hnd2
            refine ⟨r, ?_, hfix3, hnd3⟩
            rw [flatten_entries.eq_def]
            simp only []
            rw [if_pos trivial, hok2]
            exact hr
          · have hsplit2 : ¬(t = "list") ∧
                (t ∉ containerTypes ∨ goodEntries kvs = true) := by
              simpa [goodVal, ht] using hgv
            obtain ⟨hnl, hor⟩ := hsplit2
            have hgo : goodObj (.sdict t kvs) = true := by
              rcases hor with h4 | h4 <;> simp [goodObj, hnl, ht, h4]
            obtain ⟨f, hf, hfix1⟩ := flatten_obj_good (.sdict t kvs) hgo
            obtain ⟨r, hr, hfix3, hnd3⟩ :=
              flatten_entries_good rest (dinsert acc key f) hgrest
                (allFixed_dinsert acc key f hfa hfix1) (dinsert_nodup acc key f hnd)
            refine ⟨r, ?_, hfix3, hnd3⟩
            rw [flatten_entries_cons_plain key _ rest acc f (by simp [expandableB, ht]) hf]
            exact hr
      | prim t pv =>
          have hgo : goodObj (.prim t pv) = true := by
            simpa [goodVal, goodObj] using hgv
          obtain ⟨f, hf, hfix1⟩ := flatten_obj_good (.prim t pv) hgo
          obtain ⟨r, hr, hfix3, hnd3⟩ :=
            flatten_entries_good rest (dinsert acc key f) hgrest
              (allFixed_dinsert acc key f hfa hfix1) (dinsert_nodup acc key f hnd)
          refine ⟨r, ?_, hfix3, hnd3⟩
          rw [flatten_entries_cons_plain key (.prim t pv) rest acc f
            (by simp [expandableB]) hf]
          exact hr
termination_by l _ _ _ _ => sizeOf l

theorem flatten_items_good : ∀ (key : String) (i : Nat) (items : List SObj)
    (acc : List (String × SObj)), goodItems items = true →
    (∀ p ∈ acc, FixedP p.2) → (dkeys acc).Nodup →
    ∃ r, flatten_list_items key i items acc = .ok r ∧
      (∀ p ∈ r, FixedP p.2) ∧ (dkeys r).Nodup
  | _, _, [], acc, _, hfa, hnd => ⟨acc, by simp [flatten_list_items], hfa, hnd⟩
  | key, i, x :: rest, acc, hg, hfa, hnd => by
      have hsplit : goodObj x = true ∧ goodItems rest = true := by
        simpa [goodItems] using hg
      obtain ⟨hgx, hgrest⟩ := hsplit
      obtain ⟨f, hf, hfix1⟩ := flatten_obj_good x hgx
      obtain ⟨r, hr, h2, h3⟩ :=
        flatten_items_good key (i + 1) rest
          (dinsert acc (key ++ "[" ++ toString i ++ "]") f) hgrest
          (allFixed_dinsert acc _ f hfa hfix1) (dinsert_nodup acc _ f hnd)
      refine ⟨r, ?_, h2, h3⟩
      rw [flatten_list_items, hf]
      exact hr
termination_by _ _ items _ _ _ _ => sizeOf items

theorem flatten_dictvals_good : ∀ (key : String) (kvs acc : List (String × SObj)),
    goodDictVals kvs = true → (∀ p ∈ acc, FixedP p.2) → (dkeys acc).Nodup →
    ∃ r, flatten_dict_items key kvs acc = .ok r ∧
      (∀ p ∈ r, FixedP p.2) ∧ (dkeys r).Nodup
  | _, [], acc, _, hfa, hnd => ⟨acc, by simp [flatten_dict_items], hfa, hnd⟩
  | key, (k1, v1) :: rest, acc, hg, hfa, hnd => by
      have hsplit : goodObj v1 = true ∧ goodDictVals rest = true := by
        simpa [goodDictVals] using hg
      obtain ⟨hgx, hgrest⟩ := hsplit
      obtain ⟨f, hf, hfix1⟩ := flatten_obj_good v1 hgx
      obtain ⟨r, hr, h2, h3⟩ :=
        flatten_dictvals_good key rest
          (dinsert acc (key ++ "[\"" ++ k1 ++ "\"]") f) hgrest
          (allFixed_dinsert acc _ f hfa hfix1) (dinsert_nodup acc _ f hnd)
      refine ⟨r, ?_, h2, h3⟩
      rw [flatten_dict_items, hf]
      exact hr
termination_by _ kvs _ _ _ _ => sizeOf kvs

end

/- ===================== Claim C8 ====================== -/

/-- Claim C8 (amended): flattening is idempotent on snapshots in which
no container occurs in element position of a list or dict entry (no
list anywhere in element position, and no dict-typed or list-typed
container as a list element or dict value), the condition captured by
goodEntries; for such snapshots one flattening succeeds and a second
application returns its output unchanged.  On arbitrary snapshots
idempotence fails (see the counterexample): a dict nested inside a
list is emitted unexpanded by the first pass and expanded by the
second. -/
theorem c8_flatten_idempotent_no_nested_containers (l : List (String × SObj))
    (hg : goodEntries l = true) :
    ∃ r, flatten_obj_value l = .ok r ∧ flatten_obj_value r = .ok r := by
  obtain ⟨r, hok, hfix, hnd⟩ := flatten_entries_good l [] hg (by simp) (by simp [dkeys])
  refine ⟨r, hok, ?_⟩
  have hid := flatten_entries_id r [] hfix (by simpa [dkeys] using hnd)
  simpa [flatten_obj_value] using hid

/-- Claim C8, counterexample to the claim as stated: flattening the
snapshot with a dict inside a list is not idempotent; the first pass
emits the dict unexpanded under l[0], the second pass expands it to
l[0]["k"]. -/
theorem c8_counterexample :
    flatten_obj_value [("l", .slist "list" [.sdict "dict" [("k", .prim "int" "1")]])] =
      .ok [("l[0]", .sdict "dict" [("k", .prim "int" "1")])] ∧
    flatten_obj_value [("l[0]", .sdict "dict" [("k", .prim "int" "1")])] =
      .ok [("l[0][\"k\"]", .prim "int" "1")] ∧
    [("l[0]", SObj.sdict "dict" [("k", SObj.prim "int" "1")])] ≠
      [("l[0][\"k\"]", SObj.prim "int" "1")] := by
  refine ⟨?_, ?_, ?_⟩
  · simp [flatten_obj_value, flatten_entries, flatten_list_items, flatten_dict_items,
      flatten_obj, dinsert, dset, dkeys, containerTypes]
    decide
  · simp [flatten_obj_value, flatten_entries, flatten_list_items, flatten_dict_items,
      flatten_obj, dinsert, dset, dkeys, containerTypes]
  · intro h
    have := congrArg (fun x => dkeys x) h
    simp [dkeys] at this

/-- Witness instantiating the amended idempotence theorem on a
snapshot with a scalar, a list of scalars and a generic container. -/
theorem c8_witness :
    ∃ r, flatten_obj_value
        [("mode", .prim "str" "OFF"),
         ("xs", .slist "list" [.prim "int" "1", .prim "int" "2"]),
         ("sub", .sdict "DataService" [("a", .prim "int" "3")])] = .ok r ∧
      flatten_obj_value r = .ok r :=
  c8_flatten_idempotent_no_nested_containers
    [("mode", .prim "str" "OFF"),
     ("xs", .slist "list" [.prim "int" "1", .prim "int" "2"]),
     ("sub", .sdict "DataService" [("a", .prim "int" "3")])]
    (by simp [goodEntries, goodVal, goodObj, goodItems, goodDictVals, containerTypes])

/- ===================== Heap model of the read path (claim C10) ====================== -/

/-- Value field of a serialized-snapshot node stored on the heap:
a primitive, a dictionary of named child references, or a list of
child references.  The heap makes Python object identity and in-place
mutation explicit, which the pure model above cannot express. -/
inductive HVal where
  | hprim (s : String)
  | hdict (entries : List (String × Nat))
  | hlist (addrs : List Nat)
deriving DecidableEq

/-- One serialized node as a mutable Python dictionary: its type tag,
its value, the signature dictionary of a serialized method (pairs of
parameter name and annotation string), and the "parameters" key that
update_method_serialization adds in place (absent before). -/
structure HCell where
  typeTag : String
  hval : HVal
  signature : List (String × String)
  parameters : Option (List (String × Option String))
deriving DecidableEq

/-- Heap: an allocation counter and the allocated cells; later
entries for the same address are shadowed by earlier ones (hset
prepends). -/
structure Heap where
  next : Nat
  cells : List (Nat × HCell)
deriving DecidableEq

/-- Reads the cell at an address. -/
def hget (h : Heap) (a : Nat) : Option HCell :=
  (h.cells.find? (fun p => p.1 == a)).map (·.2)

/-- Mutates the cell at an address in place. -/
def hset (h : Heap) (a : Nat) (c : HCell) : Heap := Heap.mk h.next ((a, c) :: h.cells)

/-- Allocates a fresh cell, returning its address. -/
def halloc (h : Heap) (c : HCell) : Heap × Nat :=
  (Heap.mk (h.next + 1) ((h.next, c) :: h.cells), h.next)

/-- Child references of a cell. -/
def children (c : HCell) : List Nat :=
  match c.hval with
  | .hprim _ => []
  | .hdict entries => entries.map (·.2)
  | .hlist addrs => addrs

/-- Embeds extract_type_name of rpc_interface.py: the regex search
for a group between two single quotes returns the text between the
first and the second single-quote character, or None when the
annotation contains fewer than two. -/
def extract_type_name (ann : String) : Option String :=
  match splitChar (Char.ofNat 39) ann with
  | _ :: g :: _ :: _ => some g
  | _ => none

/-- Embeds add_parameters_keyword_to_dict of rpc_interface.py: adds
the "parameters" key to a serialized method in place, mapping each
parameter name to the extracted type name of its annotation. -/
def add_parameters_keyword_to_dict (c : HCell) : HCell :=
  HCell.mk c.typeTag c.hval c.signature
    (some (c.signature.map (fun p => (p.1, extract_type_name p.2))))

mutual

/-- Models copy.deepcopy on the heap: children are copied recursively
and a fresh cell is allocated for every node reached; fuel bounds the
recursion depth (serialized snapshots are finite trees). -/
def deepcopyH : Nat → Heap → Nat → Option (Heap × Nat)
  | 0, _, _ => none
  | f + 1, h, a =>
      match hget h a with
      | none => none
      | some c =>
          match c.hval with
          | .hprim _ => some (halloc h c)
          | .hdict entries =>
              match deepcopyEntriesH f h entries with
              | some (h1, entries2) =>
                  some (halloc h1 (HCell.mk c.typeTag (.hdict entries2)
                    c.signature c.parameters))
              | none => none
          | .hlist addrs =>
              match deepcopyListH f h addrs with
              | some (h1, addrs2) =>
                  some (halloc h1 (HCell.mk c.typeTag (.hlist addrs2)
                    c.signature c.parameters))
              | none => none

/-- Deep copy of the entries of a dictionary value, left to right;
fuel is consumed on every call. -/
def deepcopyEntriesH : Nat → Heap → List (String × Nat) → Option (Heap × List (String × Nat))
  | 0, _, _ => none
  | _ + 1, h, [] => some (h, [])
  | f + 1, h, (k, a) :: rest =>
      match deepcopyH f h a with
      | some (h1, a2) =>
          match deepcopyEntriesH f h1 rest with
          | some (h2, rest2) => some (h2, (k, a2) :: rest2)
          | none => none
      | none => none

/-- Deep copy of the elements of a list value, left to right; fuel is
consumed on every call. -/
def deepcopyListH : Nat → Heap → List Nat → Option (Heap × List Nat)
  | 0, _, _ => none
  | _ + 1, h, [] => some (h, [])
  | f + 1, h, a :: rest =>
      match deepcopyH f h a with
      | some (h1, a2) =>
          match deepcopyListH f h1 rest with
          | some (h2, rest2) => some (h2, a2 :: rest2)
          | none => none
      | none => none

end

mutual

/-- Embeds update_method_serialization of rpc_interface.py on the
heap: walk every node reachable from the root (the source walks the
paths produced by generate_serialized_data_paths) and add the
"parameters" key in place to every node whose type is method. -/
def updateMethodsH : Nat → Heap → Nat → Option Heap
  | 0, _, _ => none
  | f + 1, h, a =>
      match hget h a with
      | none => none
      | some c =>
          updateChildrenH f
            (if c.typeTag == "method" then hset h a (add_parameters_keyword_to_dict c)
             else h)
            (children c)

/-- Walks the children of a node for update_method_serialization;
fuel is consumed on every call. -/
def updateChildrenH : Nat → Heap → List Nat → Option Heap
  | 0, _, _ => none
  | _ + 1, h, [] => some h
  | f + 1, h, a :: rest =>
      match updateMethodsH f h a with
      | some h1 => updateChildrenH f h1 rest
      | none => none

end

/-- Keys of a heap-level dictionary value. -/
def dkeysH (d : List (String × Nat)) : List String := d.map (·.1)

/-- Replace under an existing key, heap-level. -/
def dsetH : List (String × Nat) → String → Nat → List (String × Nat)
  | [], _, _ => []
  | (k, a) :: rest, s, na => if k = s then (s, na) :: rest else (k, a) :: dsetH rest s na

/-- Python dictionary assignment, heap-level. -/
def dinsertH (d : List (String × Nat)) (k : String) (a : Nat) : List (String × Nat) :=
  if (dkeysH d).contains k then dsetH d k a else d ++ [(k, a)]

mutual

/-- Embeds flatten_obj of rpc_interface.py on the heap: deep-copy the
node (obj_copy = copy.deepcopy(obj)), and when the type tag is a
container type, flatten the original node's value and assign the
result to the copy's value field in place; when the original value is
not a dictionary the source's flatten_obj_value call raises
AttributeError on .items().  Fuel bounds the recursion depth and is
consumed on every call. -/
def flatten_obj_H : Nat → Heap → Nat → Option (Heap × Nat)
  | 0, _, _ => none
  | f + 1, h, a =>
      match hget h a with
      | none => none
      | some c =>
          match deepcopyH (f + 1) h a with
          | none => none
          | some (h1, a1) =>
              if containerTypes.contains c.typeTag then
                match c.hval with
                | .hdict entries =>
                    match flatten_value_H f h1 entries [] with
                    | some (h2, entries2) =>
                        some (hset h2 a1 (HCell.mk c.typeTag (.hdict entries2)
                          c.signature c.parameters), a1)
                    | none => none
                | _ => none
              else some (h1, a1)

/-- Embeds the loop of flatten_obj_value on the heap, with the
dictionary under construction as accumulator. -/
def flatten_value_H :
    Nat → Heap → List (String × Nat) → List (String × Nat) →
      Option (Heap × List (String × Nat))
  | 0, _, _, _ => none
  | _ + 1, h, [], acc => some (h, acc)
  | f + 1, h, (key, a) :: rest, acc =>
      match hget h a with
      | none => none
      | some c =>
          match c.hval with
          | .hlist items =>
              if c.typeTag = "list" then
                match flatten_items_H f h key 0 items acc with
                | some (h1, acc2) => flatten_value_H f h1 rest acc2
                | none => none
              else
                match flatten_obj_H f h a with
                | some (h1, a1) => flatten_value_H f h1 rest (dinsertH acc key a1)
                | none => none
          | .hdict kvs =>
              if c.typeTag = "dict" then
                match flatten_dict_H f h key kvs acc with
                | some (h1, acc2) => flatten_value_H f h1 rest acc2
                | none => none
              else
                match flatten_obj_H f h a with
                | some (h1, a1) => flatten_value_H f h1 rest (dinsertH acc key a1)
                | none => none
          | .hprim _ =>
              match flatten_obj_H f h a with
              | some (h1, a1) => flatten_value_H f h1 rest (dinsertH acc key a1)
              | none => none

/-- Heap-level inner loop for a list-typed value. -/
def flatten_items_H :
    Nat → Heap → String → Nat → List Nat → List (String × Nat) →
      Option (Heap × List (String × Nat))
  | 0, _, _, _, _, _ => none
  | _ + 1, h, _, _, [], acc => some (h, acc)
  | f + 1, h, key, i, a :: rest, acc =>
      match flatten_obj_H f h a with
      | some (h1, a1) =>
          flatten_items_H f h1 key (i + 1) rest
            (dinsertH acc (key ++ "[" ++ toString i ++ "]") a1)
      | none => none

/-- Heap-level inner loop for a dict-typed value. -/
def flatten_dict_H :
    Nat → Heap → String → List (String × Nat) → List (String × Nat) →
      Option (Heap × List (String × Nat))
  | 0, _, _, _, _ => none
  | _ + 1, h, _, [], acc => some (h, acc)
  | f + 1, h, key, (k, a) :: rest, acc =>
      match flatten_obj_H f h a with
      | some (h1, a1) =>
          flatten_dict_H f h1 key rest (dinsertH acc (key ++ "[\"" ++ k ++ "\"]") a1)
      | none => none

end

/-- Embeds RPCInterface.get_props of rpc_interface.py on the heap:
deep-copy the serialized value dictionary of the service, add the
"parameters" keys in place on the copy, then flatten, returning the
final heap and the flat dictionary of references. -/
def get_props_H (f : Nat) (h : Heap) (root : Nat) :
    Option (Heap × List (String × Nat)) :=
  match deepcopyH f h root with
  | none => none
  | some (h1, r1) =>
      match updateMethodsH f h1 r1 with
      | none => none
      | some h2 =>
          match hget h2 r1 with
          | some c =>
              match c.hval with
              | .hdict entries => flatten_value_H f h2 entries []
              | _ => none
          | none => none

/- ===================== Heap preservation lemmas ====================== -/

theorem hget_mk_cons (n a0 x : Nat) (c0 : HCell) (cells : List (Nat × HCell)) :
    hget (Heap.mk n ((a0, c0) :: cells)) x =
      if a0 = x then some c0 else hget (Heap.mk n cells) x := by
  by_cases hx : a0 = x
  · subst hx
    simp [hget, List.find?]
  · simp only [hget, List.find?]
    have : (a0 == x) = false := by simpa using hx
    rw [this]
    simp [hx]

/-- Freshness invariant: every cell stored at an address at or above
the bound has all its child references at or above the bound.  It
holds vacuously for a closed heap with bound equal to the allocation
counter, and is maintained by the copy-then-mutate pipeline, whose
writes all target fresh cells whose children are fresh. -/
def Above (b : Nat) (h : Heap) : Prop :=
  ∀ a c, hget h a = some c → b ≤ a → ∀ x ∈ children c, b ≤ x

theorem hfind_key (cells : List (Nat × HCell)) (a : Nat) (p : Nat × HCell)
    (h : cells.find? (fun q => q.1 == a) = some p) : p.1 = a ∧ p ∈ cells := by
  induction cells with
  | nil => simp at h
  | cons hd tl ih =>
      cases hh : (hd.1 == a) with
      | true =>
          simp [List.find?, hh] at h
          refine ⟨?_, by simp [h]⟩
          rw [← h]
          simpa using hh
      | false =>
          simp [List.find?, hh] at h
          obtain ⟨h1, h2⟩ := ih h
          exact ⟨h1, List.mem_cons_of_mem _ h2⟩

theorem above_of_closed (h : Heap) (hcl : ∀ p ∈ h.cells, p.1 < h.next) :
    Above h.next h := by
  intro a c hg hba x _
  unfold hget at hg
  cases hf : h.cells.find? (fun q => q.1 == a) with
  | none => rw [hf] at hg; simp at hg
  | some p =>
      obtain ⟨h1, hpm⟩ := hfind_key h.cells a p hf
      have h2 : p.1 < h.next := hcl p hpm
      omega

mutual

theorem deepcopyH_pres : ∀ (f : Nat) (h : Heap) (a b : Nat) (h2 : Heap) (r : Nat),
    b ≤ h.next → Above b h → deepcopyH f h a = some (h2, r) →
    h.next ≤ h2.next ∧ b ≤ r ∧ (∀ x, x < h.next → hget h2 x = hget h x) ∧ Above b h2
  | 0, h, a, b, h2, r, _, _, hok => by simp [deepcopyH] at hok
  | f + 1, h, a, b, h2, r, hb, hab, hok => by
      cases hg : hget h a with
      | none => simp [deepcopyH, hg] at hok
      | some c =>
          cases hv : c.hval with
          | hprim s =>
              simp [deepcopyH, hg, hv, halloc] at hok
              obtain ⟨hh2, hr⟩ := hok
              subst hh2
              subst hr
              refine ⟨by simp, hb, ?_, ?_⟩
              · intro x hx
                rw [hget_mk_cons]
                rw [if_neg (by omega)]
                rfl
              · intro a2 c2 hg2 hba2 x hx
                rw [hget_mk_cons] at hg2
                by_cases ha2 : h.next = a2
                · rw [if_pos ha2] at hg2
                  have : c2 = c := by simpa using hg2.symm
                  subst this
                  simp [children, hv] at hx
                · rw [if_neg ha2] at hg2
                  exact hab a2 c2 hg2 hba2 x hx
          | hdict entries =>
              cases hde : deepcopyEntriesH f h entries with
              | none => simp [deepcopyH, hg, hv, hde] at hok
              | some p1 =>
                  obtain ⟨h1, entries2⟩ := p1
                  obtain ⟨hm1, hfresh1, hpres1, hab1⟩ :=
                    deepcopyEntriesH_pres f h entries b h1 entries2 hb hab hde
                  simp [deepcopyH, hg, hv, hde, halloc] at hok
                  obtain ⟨hh2, hr⟩ := hok
                  subst hh2
                  subst hr
                  refine ⟨by simp; omega, by omega, ?_, ?_⟩
                  · intro x hx
                    rw [hget_mk_cons, if_neg (by omega)]
                    exact hpres1 x hx
                  · intro a2 c2 hg2 hba2 x hx
                    rw [hget_mk_cons] at hg2
                    by_cases ha2 : h1.next = a2
                    · rw [if_pos ha2] at hg2
                      have hc2 : c2 = HCell.mk c.typeTag (.hdict entries2)
                          c.signature c.parameters := by simpa using hg2.symm
                      subst hc2
                      simp only [children] at hx
                      obtain ⟨p, hp, hpx⟩ := List.mem_map.mp hx
                      have := hfresh1 p hp
                      omega
                    · rw [if_neg ha2] at hg2
                      exact hab1 a2 c2 hg2 hba2 x hx
          | hlist addrs =>
              cases hde : deepcopyListH f h addrs with
              | none => simp [deepcopyH, hg, hv, hde] at hok
              | some p1 =>
                  obtain ⟨h1, addrs2⟩ := p1
                  obtain ⟨hm1, hfresh1, hpres1, hab1⟩ :=
                    deepcopyListH_pres f h addrs b h1 addrs2 hb hab hde
                  simp [deepcopyH, hg, hv, hde, halloc] at hok
                  obtain ⟨hh2, hr⟩ := hok
                  subst hh2
                  subst hr
                  refine ⟨by simp; omega, by omega, ?_, ?_⟩
                  · intro x hx
                    rw [hget_mk_cons, if_neg (by omega)]
                    exact hpres1 x hx
                  · intro a2 c2 hg2 hba2 x hx
                    rw [hget_mk_cons] at hg2
                    by_cases ha2 : h1.next = a2
                    · rw [if_pos ha2] at hg2
                      have hc2 : c2 = HCell.mk c.typeTag (.hlist addrs2)
                          c.signature c.parameters := by simpa using hg2.symm
                      subst hc2
                      simp only [children] at hx
                      exact hfresh1 x hx
                    · rw [if_neg ha2] at hg2
                      exact hab1 a2 c2 hg2 hba2 x hx
termination_by f _ _ _ _ _ => f

theorem deepcopyEntriesH_pres : ∀ (f : Nat) (h : Heap) (l : List (String × Nat))
    (b : Nat) (h2 : Heap) (l2 : List (String × Nat)),
    b ≤ h.next → Above b h → deepcopyEntriesH f h l = some (h2, l2) →
    h.next ≤ h2.next ∧ (∀ p ∈ l2, b ≤ p.2) ∧
      (∀ x, x < h.next → hget h2 x = hget h x) ∧ Above b h2
  | 0, h, l, b, h2, l2, _, _, hok => by simp [deepcopyEntriesH] at hok
  | f + 1, h, [], b, h2, l2, hb, hab, hok => by
      simp [deepcopyEntriesH] at hok
      obtain ⟨hh2, hl2⟩ := hok
      subst hh2
      subst hl2
      exact ⟨le_refl _, by simp, fun x _ => rfl, hab⟩
  | f + 1, h, (k, a) :: rest, b, h2, l2, hb, hab, hok => by
      cases hd1 : deepcopyH f h a with
      | none => simp [deepcopyEntriesH, hd1] at hok
      | some p1 =>
          obtain ⟨h1, a2⟩ := p1
          obtain ⟨hm1, hr1, hpres1, hab1⟩ := deepcopyH_pres f h a b h1 a2 hb hab hd1
          cases hd2 : deepcopyEntriesH f h1 rest with
          | none => simp [deepcopyEntriesH, hd1, hd2] at hok
          | some p2 =>
              obtain ⟨h3, rest2⟩ := p2
              obtain ⟨hm2, hfresh2, hpres2, hab2⟩ :=
                deepcopyEntriesH_pres f h1 rest b h3 rest2 (by omega) hab1 hd2
              simp [deepcopyEntriesH, hd1, hd2] at hok
              obtain ⟨hh2, hl2⟩ := hok
              subst hh2
              subst hl2
              refine ⟨by omega, ?_, ?_, hab2⟩
              · intro p hp
                rcases List.mem_cons.mp hp with heq | htl
                · rw [heq]
                  exact hr1
                · exact hfresh2 p htl
              · intro x hx
                rw [hpres2 x (by omega)]
                exact hpres1 x hx
termination_by f _ l _ _ _ => f

theorem deepcopyListH_pres : ∀ (f : Nat) (h : Heap) (l : List Nat)
    (b : Nat) (h2 : Heap) (l2 : List Nat),
    b ≤ h.next → Above b h → deepcopyListH f h l = some (h2, l2) →
    h.next ≤ h2.next ∧ (∀ x ∈ l2, b ≤ x) ∧
      (∀ x, x < h.next → hget h2 x = hget h x) ∧ Above b h2
  | 0, h, l, b, h2, l2, _, _, hok => by simp [deepcopyListH] at hok
  | f + 1, h, [], b, h2, l2, hb, hab, hok => by
      simp [deepcopyListH] at hok
      obtain ⟨hh2, hl2⟩ := hok
      subst hh2
      subst hl2
      exact ⟨le_refl _, by simp, fun x _ => rfl, hab⟩
  | f + 1, h, a :: rest, b, h2, l2, hb, hab, hok => by
      cases hd1 : deepcopyH f h a with
      | none => simp [deepcopyListH, hd1] at hok
      | some p1 =>
          obtain ⟨h1, a2⟩ := p1
          obtain ⟨hm1, hr1, hpres1, hab1⟩ := deepcopyH_pres f h a b h1 a2 hb hab hd1
          cases hd2 : deepcopyListH f h1 rest with
          | none => simp [deepcopyListH, hd1, hd2] at hok
          | some p2 =>
              obtain ⟨h3, rest2⟩ := p2
              obtain ⟨hm2, hfresh2, hpres2, hab2⟩ :=
                deepcopyListH_pres f h1 rest b h3 rest2 (by omega) hab1 hd2
              simp [deepcopyListH, hd1, hd2] at hok
              obtain ⟨hh2, hl2⟩ := hok
              subst hh2
              subst hl2
              refine ⟨by omega, ?_, ?_, hab2⟩
              · intro x hx
                rcases List.mem_cons.mp hx with heq | htl
                · rw [heq]
                  exact hr1
                · exact hfresh2 x htl
              · intro x hx
                rw [hpres2 x (by omega)]
                exact hpres1 x hx
termination_by f _ l _ _ _ => f

end

mutual

theorem updateMethodsH_pres : ∀ (f : Nat) (h : Heap) (a b : Nat) (h2 : Heap),
    b ≤ h.next → Above b h → b ≤ a → updateMethodsH f h a = some h2 →
    h.next ≤ h2.next ∧ (∀ x, x < b → hget h2 x = hget h x) ∧ Above b h2
  | 0, h, a, b, h2, _, _, _, hok => by simp [updateMethodsH] at hok
  | f + 1, h, a, b, h2, hb, hab, hba, hok => by
      cases hg : hget h a with
      | none => simp [updateMethodsH, hg] at hok
      | some c =>
          simp only [updateMethodsH, hg] at hok
          have hch : ∀ x ∈ children c, b ≤ x := hab a c hg hba
          by_cases hm : (c.typeTag == "method") = true
          · rw [if_pos hm] at hok
            have hb1 : b ≤ (hset h a (add_parameters_keyword_to_dict c)).next := hb
            have hab1 : Above b (hset h a (add_parameters_keyword_to_dict c)) := by
              intro a2 c2 hg2 hba2 x hx
              rw [show hset h a (add_parameters_keyword_to_dict c) =
                  Heap.mk h.next ((a, add_parameters_keyword_to_dict c) :: h.cells)
                  from rfl, hget_mk_cons] at hg2
              by_cases ha2 : a = a2
              · rw [if_pos ha2] at hg2
                have hc2 : c2 = add_parameters_keyword_to_dict c := by
                  simpa using hg2.symm
                subst hc2
                have : children (add_parameters_keyword_to_dict c) = children c := by
                  simp [children, add_parameters_keyword_to_dict]
                rw [this] at hx
                exact hch x hx
              · rw [if_neg ha2] at hg2
                exact hab a2 c2 hg2 hba2 x hx
            obtain ⟨hm2, hpres2, hab2⟩ :=
              updateChildrenH_pres f _ (children c) b h2 hb1 hab1 hch hok
            refine ⟨hm2, ?_, hab2⟩
            intro x hx
            rw [hpres2 x hx]
            rw [show hset h a (add_parameters_keyword_to_dict c) =
                Heap.mk h.next ((a, add_parameters_keyword_to_dict c) :: h.cells)
                from rfl, hget_mk_cons, if_neg (by omega)]
          · rw [if_neg hm] at hok
            exact updateChildrenH_pres f h (children c) b h2 hb hab hch hok
termination_by f _ _ _ _ => f

theorem updateChildrenH_pres : ∀ (f : Nat) (h : Heap) (l : List Nat) (b : Nat) (h2 : Heap),
    b ≤ h.next → Above b h → (∀ x ∈ l, b ≤ x) → updateChildrenH f h l = some h2 →
    h.next ≤ h2.next ∧ (∀ x, x < b → hget h2 x = hget h x) ∧ Above b h2
  | 0, h, l, b, h2, _, _, _, hok => by simp [updateChildrenH] at hok
  | f + 1, h, [], b, h2, hb, hab, _, hok => by
      simp [updateChildrenH] at hok
      subst hok
      exact ⟨le_refl _, fun x _ => rfl, hab⟩
  | f + 1, h, a :: rest, b, h2, hb, hab, hl, hok => by
      cases hu1 : updateMethodsH f h a with
      | none => simp [updateChildrenH, hu1] at hok
      | some h1 =>
          simp only [updateChildrenH, hu1] at hok
          obtain ⟨hm1, hpres1, hab1⟩ :=
            updateMethodsH_pres f h a b h1 hb hab (hl a (List.mem_cons_self _ _)) hu1
          obtain ⟨hm2, hpres2, hab2⟩ :=
            updateChildrenH_pres f h1 rest b h2 (by omega) hab1
              (fun x hx => hl x (List.mem_cons_of_mem _ hx)) hok
          refine ⟨by omega, ?_, hab2⟩
          intro x hx
          rw [hpres2 x hx, hpres1 x hx]
termination_by f _ l _ _ => f

end

theorem mem_dsetH_cases (d : List (String × Nat)) (k : String) (a : Nat)
    (p : String × Nat) (h : p ∈ dsetH d k a) : p ∈ d ∨ p.2 = a := by
  induction d with
  | nil => simp [dsetH] at h
  | cons hd tl ih =>
      obtain ⟨k1, v1⟩ := hd
      by_cases hk : k1 = k
      · subst hk
        rw [dsetH, if_pos rfl] at h
        rcases List.mem_cons.mp h with heq | htl
        · right
          rw [heq]
        · exact Or.inl (List.mem_cons_of_mem _ htl)
      · rw [dsetH, if_neg hk] at h
        rcases List.mem_cons.mp h with heq | htl
        · exact Or.inl (heq ▸ List.mem_cons_self _ _)
        · rcases ih htl with h1 | h1
          · exact Or.inl (List.mem_cons_of_mem _ h1)
          · exact Or.inr h1

theorem mem_dinsertH_cases (d : List (String × Nat)) (k : String) (a : Nat)
    (p : String × Nat) (h : p ∈ dinsertH d k a) : p ∈ d ∨ p.2 = a := by
  by_cases hc : (dkeysH d).contains k = true
  · rw [dinsertH, if_pos hc] at h
    exact mem_dsetH_cases d k a p h
  · rw [dinsertH, if_neg hc] at h
    rcases List.mem_append.mp h with h1 | h1
    · exact Or.inl h1
    · simp at h1
      right
      rw [h1]

mutual

theorem flatten_obj_H_pres : ∀ (f : Nat) (h : Heap) (a b : Nat) (h2 : Heap) (r : Nat),
    b ≤ h.next → Above b h → flatten_obj_H f h a = some (h2, r) →
    h.next ≤ h2.next ∧ b ≤ r ∧ (∀ x, x < b → hget h2 x = hget h x) ∧ Above b h2
  | 0, h, a, b, h2, r, _, _, hok => by simp [flatten_obj_H] at hok
  | f + 1, h, a, b, h2, r, hb, hab, hok => by
      cases hg : hget h a with
      | none => simp [flatten_obj_H, hg] at hok
      | some c =>
          cases hd : deepcopyH (f + 1) h a with
          | none => simp [flatten_obj_H, hg, hd] at hok
          | some p1 =>
              obtain ⟨h1, a1⟩ := p1
              obtain ⟨hm1, hba1, hpres1, hab1⟩ :=
                deepcopyH_pres (f + 1) h a b h1 a1 hb hab hd
              by_cases hct : c.typeTag ∈ containerTypes
              · cases hv : c.hval with
                | hprim s => simp [flatten_obj_H, hg, hd, hct, hv] at hok
                | hlist addrs => simp [flatten_obj_H, hg, hd, hct, hv] at hok
                | hdict entries =>
                    cases hfl : flatten_value_H f h1 entries [] with
                    | none => simp [flatten_obj_H, hg, hd, hct, hv, hfl] at hok
                    | some p2 =>
                        obtain ⟨h4, entries2⟩ := p2
                        obtain ⟨hm2, hfr2, hpres2, hab2⟩ :=
                          flatten_value_H_pres f h1 entries [] b h4 entries2
                            (by omega) hab1 (by simp) hfl
                        simp [flatten_obj_H, hg, hd, hct, hv, hfl, hset] at hok
                        obtain ⟨hh2, hr⟩ := hok
                        subst hr
                        refine ⟨?_, hba1, ?_, ?_⟩
                        · rw [← hh2]
                          simp
                          omega
                        · intro x hx
                          rw [← hh2, hget_mk_cons, if_neg (by omega)]
                          rw [hpres2 x hx]
                          exact hpres1 x (by omega)
                        · intro a2 c2 hg2 hba2 x hx
                          rw [← hh2, hget_mk_cons] at hg2
                          by_cases ha2 : a1 = a2
                          · rw [if_pos ha2] at hg2
                            have hc2 : c2 = HCell.mk c.typeTag (.hdict entries2)
                                c.signature c.parameters := by simpa using hg2.symm
                            subst hc2
                            simp only [children] at hx
                            obtain ⟨q, hq, hqx⟩ := List.mem_map.mp hx
                            have := hfr2 q hq
                            omega
                          · rw [if_neg ha2] at hg2
                            exact hab2 a2 c2 hg2 hba2 x hx
              · simp [flatten_obj_H, hg, hd, hct] at hok
                obtain ⟨hh2, hr⟩ := hok
                subst hh2
                subst hr
                exact ⟨hm1, hba1, fun x hx => hpres1 x (by omega), hab1⟩
termination_by f _ _ _ _ _ => f

theorem flatten_value_H_pres : ∀ (f : Nat) (h : Heap) (l acc : List (String × Nat))
    (b : Nat) (h2 : Heap) (l2 : List (String × Nat)),
    b ≤ h.next → Above b h → (∀ p ∈ acc, b ≤ p.2) →
    flatten_value_H f h l acc = some (h2, l2) →
    h.next ≤ h2.next ∧ (∀ p ∈ l2, b ≤ p.2) ∧
      (∀ x, x < b → hget h2 x = hget h x) ∧ Above b h2
  | 0, h, l, acc, b, h2, l2, _, _, _, hok => by simp [flatten_value_H] at hok
  | f + 1, h, [], acc, b, h2, l2, hb, hab, hacc, hok => by
      simp [flatten_value_H] at hok
      obtain ⟨hh2, hl2⟩ := hok
      subst hh2
      subst hl2
      exact ⟨le_refl _, hacc, fun x _ => rfl, hab⟩
  | f + 1, h, (key, a) :: rest, acc, b, h2, l2, hb, hab, hacc, hok => by
      cases hg : hget h a with
      | none => simp [flatten_value_H, hg] at hok
      | some c =>
          have hobjStep : ∀ (h1 : Heap) (a1 : Nat),
              flatten_obj_H f h a = some (h1, a1) →
              flatten_value_H f h1 rest (dinsertH acc key a1) = some (h2, l2) →
              h.next ≤ h2.next ∧ (∀ p ∈ l2, b ≤ p.2) ∧
                (∀ x, x < b → hget h2 x = hget h x) ∧ Above b h2 := by
            intro h1 a1 hfo hrest
            obtain ⟨hm1, hba1, hpres1, hab1⟩ :=
              flatten_obj_H_pres f h a b h1 a1 hb hab hfo
            have hacc2 : ∀ p ∈ dinsertH acc key a1, b ≤ p.2 := by
              intro p hp
              rcases mem_dinsertH_cases acc key a1 p hp with h1m | h1m
              · exact hacc p h1m
              · omega
            obtain ⟨hm2, hfr2, hpres2, hab2⟩ :=
              flatten_value_H_pres f h1 rest (dinsertH acc key a1) b h2 l2
                (by omega) hab1 hacc2 hrest
            exact ⟨by omega, hfr2, fun x hx => (hpres2 x hx).trans (hpres1 x hx), hab2⟩
          cases hv : c.hval with
          | hlist items =>
              by_cases ht : c.typeTag = "list"
              · cases hit : flatten_items_H f h key 0 items acc with
                | none => simp [flatten_value_H, hg, hv, ht, hit] at hok
                | some p1 =>
                    obtain ⟨h1, acc2⟩ := p1
                    obtain ⟨hm1, hfr1, hpres1, hab1⟩ :=
                      flatten_items_H_pres f h key 0 items acc b h1 acc2 hb hab hacc hit
                    have hrest : flatten_value_H f h1 rest acc2 = some (h2, l2) := by
                      simpa [flatten_value_H, hg, hv, ht, hit] using hok
                    obtain ⟨hm2, hfr2, hpres2, hab2⟩ :=
                      flatten_value_H_pres f h1 rest acc2 b h2 l2 (by omega) hab1 hfr1 hrest
                    exact ⟨by omega, hfr2,
                      fun x hx => (hpres2 x hx).trans (hpres1 x hx), hab2⟩
              · cases hfo : flatten_obj_H f h a with
                | none => simp [flatten_value_H, hg, hv, ht, hfo] at hok
                | some p1 =>
                    obtain ⟨h1, a1⟩ := p1
                    exact hobjStep h1 a1 hfo
                      (by simpa [flatten_value_H, hg, hv, ht, hfo] using hok)
          | hdict kvs =>
              by_cases ht : c.typeTag = "dict"
              · cases hit : flatten_dict_H f h key kvs acc with
                | none => simp [flatten_value_H, hg, hv, ht, hit] at hok
                | some p1 =>
                    obtain ⟨h1, acc2⟩ := p1
                    obtain ⟨hm1, hfr1, hpres1, hab1⟩ :=
                      flatten_dict_H_pres f h key kvs acc b h1 acc2 hb hab hacc hit
                    have hrest : flatten_value_H f h1 rest acc2 = some (h2, l2) := by
                      simpa [flatten_value_H, hg, hv, ht, hit] using hok
                    obtain ⟨hm2, hfr2, hpres2, hab2⟩ :=
                      flatten_value_H_pres f h1 rest acc2 b h2 l2 (by omega) hab1 hfr1 hrest
                    exact ⟨by omega, hfr2,
                      fun x hx => (hpres2 x hx).trans (hpres1 x hx), hab2⟩
              · cases hfo : flatten_obj_H f h a with
                | none => simp [flatten_value_H, hg, hv, ht, hfo] at hok
                | some p1 =>
                    obtain ⟨h1, a1⟩ := p1
                    exact hobjStep h1 a1 hfo
                      (by simpa [flatten_value_H, hg, hv, ht, hfo] using hok)
          | hprim s =>
              cases hfo : flatten_obj_H f h a with
              | none => simp [flatten_value_H, hg, hv, hfo] at hok
              | some p1 =>
                  obtain ⟨h1, a1⟩ := p1
                  exact hobjStep h1 a1 hfo
                    (by simpa [flatten_value_H, hg, hv, hfo] using hok)
termination_by f _ _ _ _ _ _ => f

theorem flatten_items_H_pres : ∀ (f : Nat) (h : Heap) (key : String) (i : Nat)
    (l : List Nat) (acc : List (String × Nat)) (b : Nat) (h2 : Heap)
    (l2 : List (String × Nat)),
    b ≤ h.next → Above b h → (∀ p ∈ acc, b ≤ p.2) →
    flatten_items_H f h key i l acc = some (h2, l2) →
    h.next ≤ h2.next ∧ (∀ p ∈ l2, b ≤ p.2) ∧
      (∀ x, x < b → hget h2 x = hget h x) ∧ Above b h2
  | 0, h, key, i, l, acc, b, h2, l2, _, _, _, hok => by simp [flatten_items_H] at hok
  | f + 1, h, key, i, [], acc, b, h2, l2, hb, hab, hacc, hok => by
      simp [flatten_items_H] at hok
      obtain ⟨hh2, hl2⟩ := hok
      subst hh2
      subst hl2
      exact ⟨le_refl _, hacc, fun x _ => rfl, hab⟩
  | f + 1, h, key, i, a :: rest, acc, b, h2, l2, hb, hab, hacc, hok => by
      cases hfo : flatten_obj_H f h a with
      | none => simp [flatten_items_H, hfo] at hok
      | some p1 =>
          obtain ⟨h1, a1⟩ := p1
          obtain ⟨hm1, hba1, hpres1, hab1⟩ :=
            flatten_obj_H_pres f h a b h1 a1 hb hab hfo
          have hacc2 : ∀ p ∈ dinsertH acc (key ++ "[" ++ toString i ++ "]") a1, b ≤ p.2 := by
            intro p hp
            rcases mem_dinsertH_cases acc _ a1 p hp with h1m | h1m
            · exact hacc p h1m
            · omega
          have hrest : flatten_items_H f h1 key (i + 1) rest
              (dinsertH acc (key ++ "[" ++ toString i ++ "]") a1) = some (h2, l2) := by
            simpa [flatten_items_H, hfo] using hok
          obtain ⟨hm2, hfr2, hpres2, hab2⟩ :=
            flatten_items_H_pres f h1 key (i + 1) rest _ b h2 l2 (by omega) hab1 hacc2 hrest
          exact ⟨by omega, hfr2, fun x hx => (hpres2 x hx).trans (hpres1 x hx), hab2⟩
termination_by f _ _ _ _ _ _ _ _ => f

theorem flatten_dict_H_pres : ∀ (f : Nat) (h : Heap) (key : String)
    (l acc : List (String × Nat)) (b : Nat) (h2 : Heap) (l2 : List (String × Nat)),
    b ≤ h.next → Above b h → (∀ p ∈ acc, b ≤ p.2) →
    flatten_dict_H f h key l acc = some (h2, l2) →
    h.next ≤ h2.next ∧ (∀ p ∈ l2, b ≤ p.2) ∧
      (∀ x, x < b → hget h2 x = hget h x) ∧ Above b h2
  | 0, h, key, l, acc, b, h2, l2, _, _, _, hok => by simp [flatten_dict_H] at hok
  | f + 1, h, key, [], acc, b, h2, l2, hb, hab, hacc, hok => by
      simp [flatten_dict_H] at hok
      obtain ⟨hh2, hl2⟩ := hok
      subst hh2
      subst hl2
      exact ⟨le_refl _, hacc, fun x _ => rfl, hab⟩
  | f + 1, h, key, (k, a) :: rest, acc, b, h2, l2, hb, hab, hacc, hok => by
      cases hfo : flatten_obj_H f h a with
      | none => simp [flatten_dict_H, hfo] at hok
      | some p1 =>
          obtain ⟨h1, a1⟩ := p1
          obtain ⟨hm1, hba1, hpres1, hab1⟩ :=
            flatten_obj_H_pres f h a b h1 a1 hb hab hfo
          have hacc2 : ∀ p ∈ dinsertH acc (key ++ "[\"" ++ k ++ "\"]") a1, b ≤ p.2 := by
            intro p hp
            rcases mem_dinsertH_cases acc _ a1 p hp with h1m | h1m
            · exact hacc p h1m
            · omega
          have hrest : flatten_dict_H f h1 key rest
              (dinsertH acc (key ++ "[\"" ++ k ++ "\"]") a1) = some (h2, l2) := by
            simpa [flatten_dict_H, hfo] using hok
          obtain ⟨hm2, hfr2, hpres2, hab2⟩ :=
            flatten_dict_H_pres f h1 key rest _ b h2 l2 (by omega) hab1 hacc2 hrest
          exact ⟨by omega, hfr2, fun x hx => (hpres2 x hx).trans (hpres1 x hx), hab2⟩
termination_by f _ _ _ _ _ _ _ => f

end

/- ===================== Claim C10 ====================== -/

/-- Claim C10: the read path never mutates its input.  get_props
deep-copies the serialized snapshot before update_method_serialization
adds the "parameters" keys in place, and flatten_obj deep-copies every
node before rewriting its value field, so every in-place write of the
pipeline targets a freshly allocated cell: on a closed heap, every
address allocated before the call holds the same cell afterwards. -/
theorem c10_get_props_preserves_original (f : Nat) (h : Heap) (root : Nat)
    (h2 : Heap) (res : List (String × Nat))
    (hcl : ∀ p ∈ h.cells, p.1 < h.next)
    (hok : get_props_H f h root = some (h2, res)) :
    ∀ x, x < h.next → hget h2 x = hget h x := by
  unfold get_props_H at hok
  cases hd : deepcopyH f h root with
  | none => rw [hd] at hok; simp at hok
  | some p1 =>
      obtain ⟨h1, r1⟩ := p1
      rw [hd] at hok
      simp only [] at hok
      obtain ⟨hm1, hbr1, hpres1, hab1⟩ :=
        deepcopyH_pres f h root h.next h1 r1 (le_refl _) (above_of_closed h hcl) hd
      cases hu : updateMethodsH f h1 r1 with
      | none => rw [hu] at hok; simp at hok
      | some h3 =>
          rw [hu] at hok
          simp only [] at hok
          obtain ⟨hm2, hpres2, hab2⟩ :=
            updateMethodsH_pres f h1 r1 h.next h3 (by omega) hab1 hbr1 hu
          cases hgc : hget h3 r1 with
          | none => rw [hgc] at hok; simp at hok
          | some c =>
              rw [hgc] at hok
              simp only [] at hok
              cases hv : c.hval with
              | hprim s => rw [hv] at hok; simp at hok
              | hlist addrs => rw [hv] at hok; simp at hok
              | hdict entries =>
                  rw [hv] at hok
                  simp only [] at hok
                  obtain ⟨hm3, hfr3, hpres3, hab3⟩ :=
                    flatten_value_H_pres f h3 entries [] h.next h2 res
                      (by omega) hab2 (by simp) hok
                  intro x hx
                  rw [hpres3 x hx, hpres2 x hx, hpres1 x hx]

/-- Heap fixture for the witness: a DataService root whose value
dictionary holds one serialized method. -/
def heapC10 : Heap :=
  Heap.mk 2
    [(0, HCell.mk "DataService" (.hdict [("m", 1)]) [] none),
     (1, HCell.mk "method" (.hprim "m") [("x", "int")] none)]

/-- Witness instantiating c10_get_props_preserves_original on the
two-cell fixture: after the full get_props pipeline the original
method cell is unchanged. -/
theorem c10_witness :
    ∃ p, get_props_H 6 heapC10 0 = some p ∧ hget p.1 1 = hget heapC10 1 := by
  cases hok : get_props_H 6 heapC10 0 with
  | none => exact absurd hok (by decide)
  | some p =>
      obtain ⟨hh, rr⟩ := p
      exact ⟨(hh, rr), rfl,
        c10_get_props_preserves_original 6 heapC10 0 hh rr (by decide) hok 1 (by decide)⟩
